import Mathlib

set_option maxRecDepth 8000

/-!
Verification of the OpenShift `init` plugin (`internal/plugins/openshift/v1/init.go`).

The plugin rewrites container-image and toolchain-version references in three
scaffolded files via Go regular expressions of the restricted shape
`<prefix>[^<negated chars>]+`, where `<prefix>` is a sequence of literal
characters and unescaped `.` metacharacters (matching any character except a
newline, per RE2 defaults), and then records a plugin marker in the project
configuration.

The embedding models:
* the RE2 subset used by the source's patterns (`RChar`, `matchPre`, `clsRun`,
  `matchLen`) with leftmost, greedy, non-overlapping `ReplaceAll` semantics
  (`replaceAll`);
* the substitution table `imageSubstitutions` (a Go map; iteration order is
  unspecified in Go, the embedding fixes the source's textual order);
* the applier `replaceImages` over an explicit filesystem state with
  read/stat/write operations and an operation trace;
* the `Scaffold` entry point with the plugin-configuration branch.
-/

namespace OpenShiftV1

/-- One pattern element of an RE2 pattern used by the plugin: either a literal
character or the `.` metacharacter (any character except newline). -/
inductive RChar where
  | lit (c : Char)
  | dot
deriving DecidableEq

/-- Whether a single pattern element matches a character. -/
def charM : RChar → Char → Bool
  | .lit a, c => a == c
  | .dot, c => c != '\n'

/-- Consume the pattern prefix from the front of the text; return the rest of
the text on success. -/
def matchPre : List RChar → List Char → Option (List Char)
  | [], s => some s
  | _ :: _, [] => none
  | p :: ps, c :: cs => if charM p c then matchPre ps cs else none

/-- Greedy run length of characters not in the negated class `neg`
(the `[^...]+` tail of each pattern, maximal munch). -/
def clsRun (neg : List Char) : List Char → Nat
  | [] => 0
  | c :: cs => if neg.contains c then 0 else clsRun neg cs + 1

/-- A compiled pattern of the shape `<prefix>[^neg]+`. -/
structure Regexp where
  pre : List RChar
  neg : List Char
deriving DecidableEq

/-- Length of the match of `re` at the start of `s`, if any (prefix must match
and the negated class must match at least one character, maximal munch). -/
def matchLen (re : Regexp) (s : List Char) : Option Nat :=
  match matchPre re.pre s with
  | none => none
  | some u => if clsRun re.neg u = 0 then none else some (re.pre.length + clsRun re.neg u)

/-- A single substitution rule, as in the source: a compiled pattern and the
replacement text. -/
structure substitution where
  fromTagRE : Regexp
  toTag : String
deriving DecidableEq

/-- Fuel-driven worker for `replaceAll`: scan left to right, replacing each
leftmost non-overlapping match and continuing after it (Go
`Regexp.ReplaceAll`; the replacement texts contain no `$` expansions). -/
def raGo (re : Regexp) (repl : List Char) : Nat → List Char → List Char
  | _, [] => []
  | 0, s => s
  | f + 1, c :: cs =>
    match matchLen re (c :: cs) with
    | none => c :: raGo re repl f cs
    | some n => repl ++ raGo re repl f ((c :: cs).drop n)

/-- `re.ReplaceAll(s, repl)`: replace every leftmost non-overlapping match. -/
def replaceAll (re : Regexp) (repl : List Char) (s : List Char) : List Char :=
  raGo re repl s.length s

/-- Apply one substitution rule to a byte content. -/
def applySubst (sub : substitution) (b : List Char) : List Char :=
  replaceAll sub.fromTagRE sub.toTag.toList b

/-- Apply a rule list in order, each rule operating on the previous output
(the inner loop of `replaceImages`). -/
def applySubsts (subs : List substitution) (b : List Char) : List Char :=
  subs.foldl (fun b sub => applySubst sub b) b

/-- Compile one of the source's pattern strings: unescaped `.` is the
any-character-but-newline metacharacter, everything else is literal. -/
def goPat (s : String) : List RChar :=
  s.toList.map fun c => if c = '.' then RChar.dot else RChar.lit c

/-- The current OCP release version. -/
def ocpProductVersion : String := "4.14"

/-- The currently used version of ubi8/ubi-minimal images. -/
def ubiMinimalVersion : String := "8.8"

/-- The kube-rbac-proxy image rule of the image-patch manifest entry. -/
def kubeRbacProxySub : substitution :=
  ⟨⟨goPat "gcr.io/kubebuilder/kube-rbac-proxy:", [' ', '\n']⟩,
    "registry.redhat.io/openshift4/ose-kube-rbac-proxy:v" ++ ocpProductVersion⟩

/-- The Ansible operator base-image rule of the Dockerfile entry. -/
def ansibleOperatorSub : substitution :=
  ⟨⟨goPat "quay.io/operator-framework/ansible-operator:", [' ', '\n']⟩,
    "registry.redhat.io/openshift4/ose-ansible-operator:v" ++ ocpProductVersion⟩

/-- The Helm operator base-image rule of the Dockerfile entry. -/
def helmOperatorSub : substitution :=
  ⟨⟨goPat "quay.io/operator-framework/helm-operator:", [' ', '\n']⟩,
    "registry.redhat.io/openshift4/ose-helm-operator:v" ++ ocpProductVersion⟩

/-- The distroless base-image rule of the Dockerfile entry (Go projects). -/
def distrolessSub : substitution :=
  ⟨⟨goPat "gcr.io/distroless/static:", [' ', '\n']⟩,
    "registry.access.redhat.com/ubi8/ubi-minimal:" ++ ubiMinimalVersion⟩

/-- The Go builder-image rule of the Dockerfile entry. -/
def golangSub : substitution :=
  ⟨⟨goPat "golang:", [' ', '\n']⟩, "golang:1.20"⟩

/-- The ubi-micro base-image rule of the Dockerfile entry (Hybrid Helm). -/
def ubiMicroSub : substitution :=
  ⟨⟨goPat "registry.access.redhat.com/ubi8/ubi-micro:", [' ', '\n']⟩,
    "registry.access.redhat.com/ubi8/ubi-micro:" ++ ubiMinimalVersion⟩

/-- The `golang.org/x/net` version-pin rule of the go.mod entry. -/
def xNetSub : substitution :=
  ⟨⟨goPat "golang.org/x/net ", [' ', '\n']⟩, "golang.org/x/net v0.17.0"⟩

/-- The `go 1.x` language-version rule of the go.mod entry. -/
def goVersionSub : substitution :=
  ⟨⟨goPat "go 1.", ['2', '\n']⟩, "go 1.20"⟩

/-- `imageSubstitutions` is a map of paths to image substitutions.  The source
is a Go map whose iteration order is unspecified; the embedding lists the
entries in the source's textual order. -/
def imageSubstitutions : List (String × List substitution) :=
  [ ("config/default/manager_auth_proxy_patch.yaml", [kubeRbacProxySub]),
    ("Dockerfile",
      [ansibleOperatorSub, helmOperatorSub, distrolessSub, golangSub, ubiMicroSub]),
    ("go.mod", [xNetSub, goVersionSub]) ]

/-! ### Basic facts about the matcher -/

theorem matchPre_some_drop {p : List RChar} :
    ∀ {s u : List Char}, matchPre p s = some u → u = s.drop p.length ∧ p.length ≤ s.length := by
  induction p with
  | nil => intro s u h; simp [matchPre] at h; simp [h]
  | cons q qs ih =>
    intro s u h
    cases s with
    | nil => simp [matchPre] at h
    | cons c cs =>
      simp only [matchPre] at h
      by_cases hm : charM q c
      · simp [hm] at h
        rcases ih h with ⟨h1, h2⟩
        refine ⟨by simpa using h1, by simpa using Nat.succ_le_succ h2⟩
      · simp [hm] at h

theorem clsRun_le_length (neg : List Char) : ∀ s : List Char, clsRun neg s ≤ s.length := by
  intro s
  induction s with
  | nil => simp [clsRun]
  | cons c cs ih =>
    simp only [clsRun, List.length_cons]
    split
    · omega
    · omega

theorem matchLen_some {re : Regexp} {s : List Char} {n : Nat}
    (h : matchLen re s = some n) : 1 ≤ n ∧ n ≤ s.length := by
  unfold matchLen at h
  cases hm : matchPre re.pre s with
  | none => rw [hm] at h; simp at h
  | some u =>
    rw [hm] at h
    rcases matchPre_some_drop hm with ⟨hu, hle⟩
    by_cases hz : clsRun re.neg u = 0
    · simp [hz] at h
    · simp [hz] at h
      have hcl : clsRun re.neg u ≤ u.length := clsRun_le_length _ _
      have hul : u.length = s.length - re.pre.length := by simp [hu]
      omega

/-! ### Defining equations of `replaceAll` -/

theorem raGo_fuel (re : Regexp) (repl : List Char) :
    ∀ f₁ : Nat, ∀ f₂ : Nat, ∀ s : List Char, s.length ≤ f₁ → s.length ≤ f₂ →
      raGo re repl f₁ s = raGo re repl f₂ s := by
  intro f₁
  induction f₁ with
  | zero =>
    intro f₂ s h1 _
    have : s = [] := List.eq_nil_of_length_eq_zero (Nat.le_zero.mp h1)
    subst this
    cases f₂ <;> rfl
  | succ g ih =>
    intro f₂ s h1 h2
    cases s with
    | nil => cases f₂ <;> rfl
    | cons c cs =>
      cases f₂ with
      | zero => simp at h2
      | succ g₂ =>
        simp only [raGo]
        cases hm : matchLen re (c :: cs) with
        | none =>
          have hl : cs.length ≤ g := by simpa using h1
          have hl₂ : cs.length ≤ g₂ := by simpa using h2
          rw [ih g₂ cs hl hl₂]
        | some n =>
          rcases matchLen_some hm with ⟨hn1, hn2⟩
          have hd : ((c :: cs).drop n).length ≤ g := by
            simp only [List.length_drop]
            simp only [List.length_cons] at h1 ⊢
            omega
          have hd₂ : ((c :: cs).drop n).length ≤ g₂ := by
            simp only [List.length_drop]
            simp only [List.length_cons] at h2 ⊢
            omega
          show repl ++ raGo re repl g ((c :: cs).drop n) =
            repl ++ raGo re repl g₂ ((c :: cs).drop n)
          rw [ih g₂ _ hd hd₂]

theorem replaceAll_nil (re : Regexp) (repl : List Char) : replaceAll re repl [] = [] := rfl

theorem replaceAll_cons_none {re : Regexp} {repl : List Char} {c : Char} {cs : List Char}
    (h : matchLen re (c :: cs) = none) :
    replaceAll re repl (c :: cs) = c :: replaceAll re repl cs := by
  unfold replaceAll
  simp only [List.length_cons, raGo, h]

theorem replaceAll_cons_some {re : Regexp} {repl : List Char} {c : Char} {cs : List Char} {n : Nat}
    (h : matchLen re (c :: cs) = some n) :
    replaceAll re repl (c :: cs) = repl ++ replaceAll re repl ((c :: cs).drop n) := by
  unfold replaceAll
  simp only [List.length_cons, raGo, h]
  rcases matchLen_some h with ⟨hn1, hn2⟩
  congr 1
  apply raGo_fuel
  · simp only [List.length_drop, List.length_cons] at *; omega
  · simp

/-! ### Side conditions on rule pairs

The idempotence proof is driven by decidable conditions on pairs of rules
(`a` the observed rule, `b` the rule being applied), checked by `decide` on
the concrete table. -/

/-- `preFailsIn p t = true` iff matching `p` against `t ++ w` mismatches
within `t`, for every continuation `w`. -/
def preFailsIn : List RChar → List Char → Bool
  | [], _ => false
  | _ :: _, [] => false
  | p :: ps, c :: cs => if charM p c then preFailsIn ps cs else true

/-- `rcompat x y = true` iff every character matched by `y` is matched by `x`. -/
def rcompat : RChar → RChar → Bool
  | .dot, .dot => true
  | .dot, .lit c => c != '\n'
  | .lit c, .lit d => c == d
  | .lit _, .dot => false

/-- Pointwise `rcompat` of a pattern with a prefix of another pattern. -/
def rcompatAll : List RChar → List RChar → Bool
  | [], _ => true
  | _ :: _, [] => false
  | x :: xs, y :: ys => rcompat x y && rcompatAll xs ys

/-- Fallback condition at pattern offset `k`: the tail `pa.drop k` of the
observed pattern matches every text matched by the applied pattern `pb`, and
the next character of any `pb`-match is a fixed literal outside `na`. -/
def fbOK (pa : List RChar) (k : Nat) (pb : List RChar) (na : List Char) : Bool :=
  decide ((pa.drop k).length < pb.length) &&
  rcompatAll (pa.drop k) pb &&
  (match pb.get? (pa.drop k).length with
   | some (.lit c) => !na.contains c
   | _ => false)

/-- Both patterns are nonempty. -/
def k1b (a b : substitution) : Bool :=
  decide (0 < a.fromTagRE.pre.length) && decide (0 < b.fromTagRE.pre.length)

/-- The applied pattern starts with a literal that no relevant class excludes. -/
def k2b (a b : substitution) : Bool :=
  match b.fromTagRE.pre.head? with
  | some (.lit c) => !a.fromTagRE.neg.contains c && !b.fromTagRE.neg.contains c
  | _ => false

/-- The applied replacement is nonempty and starts outside the observed class. -/
def k3b (a b : substitution) : Bool :=
  match b.toTag.toList.head? with
  | some c => !a.fromTagRE.neg.contains c
  | none => false

/-- Every proper tail of the observed pattern either fails inside the applied
replacement or satisfies the fallback condition. -/
def k4b (a b : substitution) : Bool :=
  (List.range a.fromTagRE.pre.length).all fun k =>
    decide (k = 0) || preFailsIn (a.fromTagRE.pre.drop k) b.toTag.toList ||
      fbOK a.fromTagRE.pre k b.fromTagRE.pre a.fromTagRE.neg

/-- The observed pattern fails inside every proper tail of the applied
replacement. -/
def k5b (a b : substitution) : Bool :=
  (List.range b.toTag.toList.length).all fun m =>
    decide (m = 0) || preFailsIn a.fromTagRE.pre (b.toTag.toList.drop m)

/-- At the start of the applied replacement the observed pattern either fails
inside it, or stops with a class character, or (self case) re-matches the
whole replacement producing the same text. -/
def k6b (a b : substitution) : Bool :=
  preFailsIn a.fromTagRE.pre b.toTag.toList ||
  (match matchPre a.fromTagRE.pre b.toTag.toList with
   | some [] => false
   | some (c :: rest) =>
       a.fromTagRE.neg.contains c ||
       ((c :: rest).all (fun x => !a.fromTagRE.neg.contains x) &&
        (a.toTag == b.toTag) && (a.fromTagRE.neg == b.fromTagRE.neg))
   | none => false)

/-- Inside the observed replacement, wherever the applied pattern's head
literal occurs, the applied pattern fails within the rest of the replacement. -/
def k7b (a b : substitution) : Bool :=
  match b.fromTagRE.pre.head? with
  | some (.lit c₀) =>
    (List.range a.toTag.toList.length).all fun d =>
      decide (d = 0) || decide (a.toTag.toList.get? d ≠ some c₀) ||
        preFailsIn b.fromTagRE.pre (a.toTag.toList.drop d)
  | _ => false

/-- All side conditions for the pair (`a` observed, `b` applied). -/
def pairOKb (a b : substitution) : Bool :=
  k1b a b && k2b a b && k3b a b && k4b a b && k5b a b && k6b a b && k7b a b

/-! ### Matcher helper lemmas -/

theorem matchLen_nil (re : Regexp) : matchLen re [] = none := by
  unfold matchLen
  cases hp : re.pre with
  | nil => simp [matchPre, clsRun]
  | cons p ps => simp [matchPre]

theorem matchPre_cons_inv {p : RChar} {ps : List RChar} {c : Char} {cs u : List Char}
    (h : matchPre (p :: ps) (c :: cs) = some u) :
    charM p c = true ∧ matchPre ps cs = some u := by
  by_cases hm : charM p c
  · exact ⟨hm, by simpa [matchPre, hm] using h⟩
  · simp [matchPre, hm] at h

theorem matchPre_append {p : List RChar} :
    ∀ {s u v : List Char}, matchPre p s = some u → matchPre p (s ++ v) = some (u ++ v) := by
  induction p with
  | nil => intro s u v h; simp [matchPre] at h ⊢; simp [h]
  | cons q qs ih =>
    intro s u v h
    cases s with
    | nil => simp [matchPre] at h
    | cons c cs =>
      rcases matchPre_cons_inv h with ⟨h1, h2⟩
      simpa [matchPre, h1] using ih h2

theorem preFailsIn_matchPre {p : List RChar} :
    ∀ {t v : List Char}, preFailsIn p t = true → matchPre p (t ++ v) = none := by
  induction p with
  | nil => intro t v h; simp [preFailsIn] at h
  | cons q qs ih =>
    intro t v h
    cases t with
    | nil => simp [preFailsIn] at h
    | cons c cs =>
      simp only [preFailsIn] at h
      by_cases hm : charM q c
      · simp [hm] at h
        simp [matchPre, hm]
        exact ih h
      · simp [matchPre, hm]

theorem matchLen_head {re : Regexp} {c₀ : Char} {s : List Char} {n : Nat}
    (hh : re.pre.head? = some (.lit c₀)) (h : matchLen re s = some n) :
    s.head? = some c₀ := by
  unfold matchLen at h
  cases hm : matchPre re.pre s with
  | none => rw [hm] at h; simp at h
  | some u =>
    cases hp : re.pre with
    | nil => rw [hp] at hh; simp at hh
    | cons p ps =>
      rw [hp] at hh
      simp at hh
      cases s with
      | nil => rw [hp] at hm; simp [matchPre] at hm
      | cons c cs =>
        rw [hp] at hm
        rcases matchPre_cons_inv hm with ⟨h1, _⟩
        rw [hh] at h1
        simp [charM] at h1
        simp [h1]

/-! ### Class-run helper lemmas -/

theorem clsRun_cons_mem {neg : List Char} {c : Char} {cs : List Char} (h : c ∈ neg) :
    clsRun neg (c :: cs) = 0 := by
  simp only [clsRun]
  rw [if_pos (by simpa using h)]

theorem clsRun_cons_not_mem {neg : List Char} {c : Char} {cs : List Char} (h : c ∉ neg) :
    clsRun neg (c :: cs) = clsRun neg cs + 1 := by
  simp only [clsRun]
  rw [if_neg (by simpa using h)]

theorem clsRun_nil (neg : List Char) : clsRun neg [] = 0 := rfl

theorem clsRun_append_stop {neg : List Char} :
    ∀ {u v : List Char}, (∀ c ∈ u, c ∉ neg) → (v = [] ∨ ∃ c cs, v = c :: cs ∧ c ∈ neg) →
      clsRun neg (u ++ v) = u.length := by
  intro u
  induction u with
  | nil =>
    intro v _ hv
    rcases hv with rfl | ⟨c, cs, rfl, hc⟩
    · simp [clsRun]
    · simp [clsRun_cons_mem hc]
  | cons x xs ih =>
    intro v hall hv
    have hx : x ∉ neg := hall x (by simp)
    simp only [List.cons_append, clsRun_cons_not_mem hx]
    rw [ih (fun c hc => hall c (by simp [hc])) hv]
    simp

theorem clsRun_pos_of_head {neg : List Char} {c : Char} {cs : List Char} (h : c ∉ neg) :
    1 ≤ clsRun neg (c :: cs) := by
  rw [clsRun_cons_not_mem h]; omega

/-- The characters after the greedy run stop: the tail starts with a class
character or is empty. -/
theorem clsRun_drop_stop (neg : List Char) :
    ∀ v : List Char, v.drop (clsRun neg v) = [] ∨
      ∃ c cs, v.drop (clsRun neg v) = c :: cs ∧ c ∈ neg := by
  intro v
  induction v with
  | nil => left; simp
  | cons c cs ih =>
    by_cases h : c ∈ neg
    · right; exact ⟨c, cs, by simp [clsRun_cons_mem h], h⟩
    · rw [clsRun_cons_not_mem h]
      simpa using ih

theorem clsRun_take_not_mem (neg : List Char) :
    ∀ v : List Char, ∀ c ∈ v.take (clsRun neg v), c ∉ neg := by
  intro v
  induction v with
  | nil => simp
  | cons x xs ih =>
    by_cases h : x ∈ neg
    · simp [clsRun_cons_mem h]
    · rw [clsRun_cons_not_mem h]
      intro c hc
      rcases (by simpa using hc : c = x ∨ c ∈ xs.take (clsRun neg xs)) with rfl | hc'
      · exact h
      · exact ih c hc'

/-! ### Inversion and construction for `matchLen` -/

theorem matchLen_inv {re : Regexp} {s : List Char} {n : Nat} (h : matchLen re s = some n) :
    ∃ u, matchPre re.pre s = some u ∧ 1 ≤ clsRun re.neg u ∧
      n = re.pre.length + clsRun re.neg u := by
  unfold matchLen at h
  cases hm : matchPre re.pre s with
  | none =>
    simp only [hm] at h
    exact Option.noConfusion h
  | some u =>
    simp only [hm] at h
    by_cases hz : clsRun re.neg u = 0
    · rw [if_pos hz] at h; cases h
    · rw [if_neg hz] at h
      refine ⟨u, rfl, by omega, ?_⟩
      injection h with h'
      omega

theorem matchLen_build {re : Regexp} {s u : List Char} (h : matchPre re.pre s = some u)
    (hc : 1 ≤ clsRun re.neg u) : matchLen re s = some (re.pre.length + clsRun re.neg u) := by
  unfold matchLen
  simp only [h]
  rw [if_neg (by omega)]

theorem matchLen_none_pre {re : Regexp} {s : List Char} (h : matchPre re.pre s = none) :
    matchLen re s = none := by
  unfold matchLen; simp only [h]

theorem matchLen_none_cls {re : Regexp} {s u : List Char} (h : matchPre re.pre s = some u)
    (hz : clsRun re.neg u = 0) : matchLen re s = none := by
  unfold matchLen
  simp only [h]
  rw [if_pos hz]

/-! ### Equations for `applySubst` -/

theorem applySubst_nil (b : substitution) : applySubst b [] = [] := rfl

theorem applySubst_cons_none {b : substitution} {c : Char} {cs : List Char}
    (h : matchLen b.fromTagRE (c :: cs) = none) :
    applySubst b (c :: cs) = c :: applySubst b cs :=
  replaceAll_cons_none h

theorem applySubst_cons_some {b : substitution} {c : Char} {cs : List Char} {n : Nat}
    (h : matchLen b.fromTagRE (c :: cs) = some n) :
    applySubst b (c :: cs) = b.toTag.toList ++ applySubst b ((c :: cs).drop n) :=
  replaceAll_cons_some h

/-! ### Extracting the pair conditions -/

theorem pairOK_split {a b : substitution} (h : pairOKb a b = true) :
    k1b a b = true ∧ k2b a b = true ∧ k3b a b = true ∧ k4b a b = true ∧
      k5b a b = true ∧ k6b a b = true ∧ k7b a b = true := by
  simp only [pairOKb, Bool.and_eq_true] at h
  tauto

theorem k1_spec {a b : substitution} (h : k1b a b = true) :
    0 < a.fromTagRE.pre.length ∧ 0 < b.fromTagRE.pre.length := by
  simpa [k1b] using h

theorem k2_spec {a b : substitution} (h : k2b a b = true) :
    ∃ c₀, b.fromTagRE.pre.head? = some (.lit c₀) ∧ c₀ ∉ a.fromTagRE.neg ∧
      c₀ ∉ b.fromTagRE.neg := by
  unfold k2b at h
  cases hh : b.fromTagRE.pre.head? with
  | none => rw [hh] at h; cases h
  | some x =>
    cases x with
    | lit c =>
      rw [hh] at h
      simp only [Bool.and_eq_true, Bool.not_eq_true'] at h
      refine ⟨c, rfl, ?_, ?_⟩
      · simpa using h.1
      · simpa using h.2
    | dot => rw [hh] at h; cases h

theorem k3_spec {a b : substitution} (h : k3b a b = true) :
    ∃ ch rbs, b.toTag.toList = ch :: rbs ∧ ch ∉ a.fromTagRE.neg := by
  unfold k3b at h
  cases hr : b.toTag.toList with
  | nil => rw [hr] at h; cases h
  | cons ch rbs =>
    rw [hr] at h
    simp only [List.head?_cons, Bool.not_eq_true'] at h
    exact ⟨ch, rbs, rfl, by simpa using h⟩

theorem k4_spec {a b : substitution} (h : k4b a b = true) {k : Nat} (h1 : 1 ≤ k)
    (h2 : k < a.fromTagRE.pre.length) :
    preFailsIn (a.fromTagRE.pre.drop k) b.toTag.toList = true ∨
      fbOK a.fromTagRE.pre k b.fromTagRE.pre a.fromTagRE.neg = true := by
  unfold k4b at h
  rw [List.all_eq_true] at h
  have hk := h k (by rw [List.mem_range]; exact h2)
  simp only [Bool.or_eq_true, decide_eq_true_eq] at hk
  rcases hk with (h0 | h') | h''
  · omega
  · exact Or.inl h'
  · exact Or.inr h''

theorem k5_spec {a b : substitution} (h : k5b a b = true) {m : Nat} (h1 : 1 ≤ m)
    (h2 : m < b.toTag.toList.length) :
    preFailsIn a.fromTagRE.pre (b.toTag.toList.drop m) = true := by
  unfold k5b at h
  rw [List.all_eq_true] at h
  have hk := h m (by rw [List.mem_range]; exact h2)
  simp only [Bool.or_eq_true, decide_eq_true_eq] at hk
  rcases hk with h0 | h'
  · omega
  · exact h'

theorem k6_spec {a b : substitution} (h : k6b a b = true) :
    preFailsIn a.fromTagRE.pre b.toTag.toList = true ∨
      (∃ c rest, matchPre a.fromTagRE.pre b.toTag.toList = some (c :: rest) ∧
        (c ∈ a.fromTagRE.neg ∨
          ((∀ x ∈ c :: rest, x ∉ a.fromTagRE.neg) ∧ a.toTag = b.toTag ∧
            a.fromTagRE.neg = b.fromTagRE.neg))) := by
  unfold k6b at h
  rw [Bool.or_eq_true] at h
  rcases h with hbf | h
  · exact Or.inl hbf
  · right
    cases hm : matchPre a.fromTagRE.pre b.toTag.toList with
    | none => rw [hm] at h; cases h
    | some u =>
      cases u with
      | nil => rw [hm] at h; cases h
      | cons c rest =>
        rw [hm] at h
        refine ⟨c, rest, rfl, ?_⟩
        simp only [Bool.or_eq_true, Bool.and_eq_true, Bool.not_eq_true', List.all_eq_true,
          beq_iff_eq] at h
        rcases h with h1 | ⟨⟨hall, htag⟩, hneg⟩
        · left; simpa using h1
        · right
          refine ⟨fun x hx => by simpa using hall x hx, htag, hneg⟩

theorem k7_spec {a b : substitution} (h : k7b a b = true) {d : Nat} {c₀ : Char}
    (hh : b.fromTagRE.pre.head? = some (.lit c₀)) (h1 : 1 ≤ d)
    (h2 : d < a.toTag.toList.length) (hc : a.toTag.toList.get? d = some c₀) :
    preFailsIn b.fromTagRE.pre (a.toTag.toList.drop d) = true := by
  unfold k7b at h
  rw [hh] at h
  rw [List.all_eq_true] at h
  have hk := h d (by rw [List.mem_range]; exact h2)
  simp only [Bool.or_eq_true, decide_eq_true_eq] at hk
  rcases hk with (h0 | h') | h''
  · omega
  · exact absurd hc h'
  · exact h''

theorem fb_spec {pa : List RChar} {k : Nat} {pb : List RChar} {na : List Char}
    (h : fbOK pa k pb na = true) :
    (pa.drop k).length < pb.length ∧ rcompatAll (pa.drop k) pb = true ∧
      ∃ c', pb.get? (pa.drop k).length = some (.lit c') ∧ c' ∉ na := by
  unfold fbOK at h
  rw [Bool.and_eq_true, Bool.and_eq_true] at h
  obtain ⟨⟨hx, hy⟩, hz⟩ := h
  refine ⟨by simpa using hx, hy, ?_⟩
  cases hg : pb.get? (pa.drop k).length with
  | none => rw [hg] at hz; simp at hz
  | some x =>
    cases x with
    | lit c =>
      rw [hg] at hz
      refine ⟨c, rfl, ?_⟩
      simpa using hz
    | dot => rw [hg] at hz; simp at hz

/-! ### The fallback walk -/

theorem rcompat_charM {x y : RChar} {c : Char} (hxy : rcompat x y = true)
    (hyc : charM y c = true) : charM x c = true := by
  cases x with
  | dot =>
    cases y with
    | dot => exact hyc
    | lit d =>
      simp only [rcompat] at hxy
      simp only [charM] at hyc ⊢
      have : d = c := by simpa using hyc
      subst this
      simpa using hxy
  | lit e =>
    cases y with
    | dot => cases hxy
    | lit d =>
      simp only [rcompat] at hxy
      simp only [charM] at hyc ⊢
      have h1 : e = d := by simpa using hxy
      have h2 : d = c := by simpa using hyc
      simp [h1, h2]

theorem fbWalk :
    ∀ (p2 pb : List RChar) (s v : List Char) (na : List Char) (c' : Char),
      p2.length < pb.length → rcompatAll p2 pb = true →
      pb.get? p2.length = some (.lit c') → c' ∉ na →
      matchPre pb s = some v →
      matchPre p2 s = some (s.drop p2.length) ∧ 1 ≤ clsRun na (s.drop p2.length) := by
  intro p2
  induction p2 with
  | nil =>
    intro pb s v na c' hlen hcomp hget hc hm
    cases pb with
    | nil => simp at hlen
    | cons y pbs =>
      simp only [List.length_nil, List.get?] at hget
      cases y with
      | lit d =>
        cases s with
        | nil => simp [matchPre] at hm
        | cons c cs =>
          rcases matchPre_cons_inv hm with ⟨hch, _⟩
          injection hget with hg
          have : d = c' := by injection hg
          subst this
          have : d = c := by simpa [charM] using hch
          subst this
          simp only [matchPre, List.drop_zero]
          exact ⟨rfl, clsRun_pos_of_head hc⟩
      | dot => cases hget
  | cons x p2s ih =>
    intro pb s v na c' hlen hcomp hget hc hm
    cases pb with
    | nil => simp at hlen
    | cons y pbs =>
      simp only [rcompatAll, Bool.and_eq_true] at hcomp
      cases s with
      | nil => simp [matchPre] at hm
      | cons c cs =>
        rcases matchPre_cons_inv hm with ⟨hyc, hm'⟩
        have hxc : charM x c = true := rcompat_charM hcomp.1 hyc
        have hlen' : p2s.length < pbs.length := by simpa using hlen
        have hget' : pbs.get? p2s.length = some (.lit c') := by simpa using hget
        rcases ih pbs cs v na c' hlen' hcomp.2 hget' hc hm' with ⟨hmp, hcls⟩
        refine ⟨?_, ?_⟩
        · simp only [matchPre, hxc, if_true, List.length_cons, List.drop_succ_cons]
          exact hmp
        · simpa using hcls

/-! ### Reading the class run across an output of `applySubst` -/

theorem clsRead (a b : substitution) (hOK : pairOKb a b = true) :
    ∀ N : Nat, ∀ s : List Char, s.length ≤ N →
      (clsRun a.fromTagRE.neg (applySubst b s) = clsRun a.fromTagRE.neg s ∧
        (applySubst b s).take (clsRun a.fromTagRE.neg s) =
          s.take (clsRun a.fromTagRE.neg s))
      ∨
      (∃ ρ, ρ + 1 ≤ clsRun a.fromTagRE.neg s ∧
        (matchLen b.fromTagRE (s.drop ρ)).isSome) := by
  rcases pairOK_split hOK with ⟨h1, h2, h3, h4, h5, h6, h7⟩
  rcases k2_spec h2 with ⟨c₀, hc₀, hc₀a, hc₀b⟩
  intro N
  induction N with
  | zero =>
    intro s hsl
    have hs : s = [] := List.eq_nil_of_length_eq_zero (Nat.le_zero.mp hsl)
    subst hs
    left
    simp [applySubst_nil]
  | succ M ih =>
    intro s hsl
    cases s with
    | nil => left; simp [applySubst_nil]
    | cons c s₁ =>
      cases hml : matchLen b.fromTagRE (c :: s₁) with
      | none =>
        by_cases hcn : c ∈ a.fromTagRE.neg
        · left
          constructor
          · rw [applySubst_cons_none hml, clsRun_cons_mem hcn, clsRun_cons_mem hcn]
          · rw [clsRun_cons_mem hcn]
            simp
        · rcases ih s₁ (by simpa using hsl) with ⟨he, ht⟩ | ⟨ρ, hρ, hsome⟩
          · left
            constructor
            · rw [applySubst_cons_none hml, clsRun_cons_not_mem hcn,
                clsRun_cons_not_mem hcn, he]
            · rw [applySubst_cons_none hml, clsRun_cons_not_mem hcn]
              simp only [List.take_succ_cons]
              rw [ht]
          · right
            refine ⟨ρ + 1, ?_, ?_⟩
            · rw [clsRun_cons_not_mem hcn]; omega
            · rw [List.drop_succ_cons]; exact hsome
      | some n₀ =>
        right
        refine ⟨0, ?_, by simp [hml]⟩
        have hhead := matchLen_head hc₀ hml
        have hcc : c = c₀ := by simpa using hhead
        subst hcc
        have := @clsRun_pos_of_head a.fromTagRE.neg _ s₁ hc₀a
        omega

/-! ### Reading a pattern tail across an output of `applySubst` -/

theorem preRead (a b : substitution) (hOK : pairOKb a b = true) :
    ∀ N : Nat, ∀ s : List Char, s.length ≤ N → ∀ k : Nat, 1 ≤ k → ∀ u : List Char,
      matchPre (a.fromTagRE.pre.drop k) (applySubst b s) = some u →
      (matchPre (a.fromTagRE.pre.drop k) s = some (s.drop (a.fromTagRE.pre.length - k)) ∧
        (applySubst b s).take (a.fromTagRE.pre.length - k) =
          s.take (a.fromTagRE.pre.length - k) ∧
        u = (applySubst b s).drop (a.fromTagRE.pre.length - k) ∧
        (applySubst b s).drop (a.fromTagRE.pre.length - k) =
          applySubst b (s.drop (a.fromTagRE.pre.length - k)))
      ∨
      (matchPre (a.fromTagRE.pre.drop k) s = some (s.drop (a.fromTagRE.pre.length - k)) ∧
        1 ≤ clsRun a.fromTagRE.neg (s.drop (a.fromTagRE.pre.length - k)) ∧
        ∃ d, d < a.fromTagRE.pre.length - k ∧ (matchLen b.fromTagRE (s.drop d)).isSome) := by
  rcases pairOK_split hOK with ⟨h1, h2, h3, h4, h5, h6, h7⟩
  intro N
  induction N with
  | zero =>
    intro s hsl k hk u hm
    have hs : s = [] := List.eq_nil_of_length_eq_zero (Nat.le_zero.mp hsl)
    subst hs
    rw [applySubst_nil] at hm
    cases hp2 : a.fromTagRE.pre.drop k with
    | nil =>
      left
      have hm0 : a.fromTagRE.pre.length - k = 0 := by
        have hlen := List.drop_eq_nil_iff.mp hp2
        omega
      rw [hp2] at hm
      have hu : u = [] := by simpa [matchPre] using hm.symm
      subst hu
      rw [hm0]
      exact ⟨by simp [matchPre], by simp, by simp [applySubst_nil], by simp [applySubst_nil]⟩
    | cons x p2x =>
      rw [hp2] at hm
      exact absurd hm (by simp [matchPre])
  | succ M ih =>
    intro s hsl k hk u hm
    cases s with
    | nil =>
      rw [applySubst_nil] at hm
      cases hp2 : a.fromTagRE.pre.drop k with
      | nil =>
        left
        have hm0 : a.fromTagRE.pre.length - k = 0 := by
          have hlen := List.drop_eq_nil_iff.mp hp2
          omega
        rw [hp2] at hm
        have hu : u = [] := by simpa [matchPre] using hm.symm
        subst hu
        rw [hm0]
        exact ⟨by simp [matchPre], by simp, by simp [applySubst_nil], by simp [applySubst_nil]⟩
      | cons x p2x =>
        rw [hp2] at hm
        exact absurd hm (by simp [matchPre])
    | cons c s₁ =>
      cases hp2 : a.fromTagRE.pre.drop k with
      | nil =>
        left
        have hm0 : a.fromTagRE.pre.length - k = 0 := by
          have hlen := List.drop_eq_nil_iff.mp hp2
          omega
        rw [hp2] at hm
        have hu : u = applySubst b (c :: s₁) := by simpa [matchPre] using hm.symm
        subst hu
        rw [hm0]
        exact ⟨by simp [matchPre], by simp, by simp, by simp⟩
      | cons x p2x =>
        have hklt : k < a.fromTagRE.pre.length := by
          by_contra hcon
          push_neg at hcon
          rw [List.drop_eq_nil_iff.mpr hcon] at hp2
          cases hp2
        have hp2x : a.fromTagRE.pre.drop (k + 1) = p2x := by
          have hdd : a.fromTagRE.pre.drop (k + 1) = (a.fromTagRE.pre.drop k).drop 1 := by
            rw [List.drop_drop]
          rw [hdd, hp2]
          rfl
        cases hml : matchLen b.fromTagRE (c :: s₁) with
        | none =>
          rw [applySubst_cons_none hml, hp2] at hm
          rcases matchPre_cons_inv hm with ⟨hxc, hmrest⟩
          have hmrest' : matchPre (a.fromTagRE.pre.drop (k + 1)) (applySubst b s₁) = some u := by
            rw [hp2x]; exact hmrest
          have hlen1 : s₁.length ≤ M := by simpa using hsl
          have hmm : a.fromTagRE.pre.length - k = (a.fromTagRE.pre.length - (k + 1)) + 1 := by
            omega
          rcases ih s₁ hlen1 (k + 1) (by omega) u hmrest' with
            ⟨e1, e2, e3, e4⟩ | ⟨e1, e2, d₁, hd₁, hesome⟩
          · left
            refine ⟨?_, ?_, ?_, ?_⟩
            · simp only [matchPre, hxc, if_true]
              rw [hmm, List.drop_succ_cons, ← hp2x]
              exact e1
            · rw [applySubst_cons_none hml, hmm]
              simp only [List.take_succ_cons]
              rw [e2]
            · rw [applySubst_cons_none hml, hmm, List.drop_succ_cons]
              exact e3
            · rw [applySubst_cons_none hml, hmm, List.drop_succ_cons, List.drop_succ_cons]
              exact e4
          · right
            refine ⟨?_, ?_, d₁ + 1, by omega, ?_⟩
            · simp only [matchPre, hxc, if_true]
              rw [hmm, List.drop_succ_cons, ← hp2x]
              exact e1
            · rw [hmm, List.drop_succ_cons]
              exact e2
            · rw [List.drop_succ_cons]
              exact hesome
        | some n₀ =>
          rcases k4_spec h4 hk hklt with hbf | hfb
          · exfalso
            rw [applySubst_cons_some hml, preFailsIn_matchPre hbf] at hm
            cases hm
          · right
            rcases fb_spec hfb with ⟨hflen, hfcomp, c', hfget, hfc⟩
            rcases matchLen_inv hml with ⟨v, hpv, _, _⟩
            have hwalk := fbWalk (a.fromTagRE.pre.drop k) b.fromTagRE.pre (c :: s₁) v
              a.fromTagRE.neg c' hflen hfcomp hfget hfc hpv
            have hld : (a.fromTagRE.pre.drop k).length = a.fromTagRE.pre.length - k :=
              List.length_drop _ _
            rw [hld, hp2] at hwalk
            exact ⟨hwalk.1, hwalk.2, 0, by omega, by simp [hml]⟩

/-! ### Assembling a match over an output -/

theorem matchPre_cons_shift {p : List RChar} {c : Char} {t u : List Char}
    (h : matchPre p (c :: t) = some u) (hp : 0 < p.length) :
    ∃ x, p.head? = some x ∧ charM x c = true ∧ matchPre (p.drop 1) t = some u := by
  cases p with
  | nil => simp at hp
  | cons x ps =>
    rcases matchPre_cons_inv h with ⟨hx, hrest⟩
    exact ⟨x, rfl, hx, by simpa using hrest⟩

theorem matchPre_cons_build {p : List RChar} {x : RChar} {c : Char} {t u : List Char}
    (hx : p.head? = some x) (hc : charM x c = true) (h : matchPre (p.drop 1) t = some u) :
    matchPre p (c :: t) = some u := by
  cases p with
  | nil => cases hx
  | cons y ps =>
    have hxy : y = x := by simpa using hx
    subst hxy
    simp only [matchPre, hc, if_true]
    simpa using h

theorem take_mirror {X Y : List Char} {m₁ ρ : Nat}
    (hm : X.take m₁ = Y.take m₁) (hρ : (X.drop m₁).take ρ = (Y.drop m₁).take ρ) :
    X.take (m₁ + ρ) = Y.take (m₁ + ρ) := by
  rw [List.take_add, List.take_add, hm, hρ]

/-- After a full match of `b`, the output of `applySubst b` on the rest either
is empty or starts with a character of `b`'s negated class. -/
theorem applySubst_stop_head (b : substitution) {c₀ : Char}
    (hc₀ : b.fromTagRE.pre.head? = some (.lit c₀)) (hcb : c₀ ∉ b.fromTagRE.neg)
    (s' : List Char)
    (hs : s' = [] ∨ ∃ ch t', s' = ch :: t' ∧ ch ∈ b.fromTagRE.neg) :
    applySubst b s' = [] ∨
      ∃ ch t'', applySubst b s' = ch :: t'' ∧ ch ∈ b.fromTagRE.neg := by
  rcases hs with rfl | ⟨ch, t', rfl, hch⟩
  · left; rfl
  · cases hml : matchLen b.fromTagRE (ch :: t') with
    | none => exact Or.inr ⟨ch, applySubst b t', applySubst_cons_none hml, hch⟩
    | some n₀ =>
      exfalso
      have hhd := matchLen_head hc₀ hml
      have hcc : ch = c₀ := by simpa using hhd
      subst hcc
      exact hcb hch

/-- Pinning contradiction: a `b`-match cannot start strictly inside an
occurrence of `a`'s replacement text. -/
theorem pinContra (a b : substitution) (h7 : k7b a b = true)
    {c₀ : Char} (hc₀ : b.fromTagRE.pre.head? = some (.lit c₀))
    {w : List Char} {nn D : Nat}
    (htake : w.take nn = a.toTag.toList) (hnle : nn ≤ w.length)
    (hD1 : 1 ≤ D) (hDlt : D < nn)
    (hblk : (matchLen b.fromTagRE (w.drop D)).isSome = true) : False := by
  rcases Option.isSome_iff_exists.mp hblk with ⟨nb0, hnb0⟩
  have hhead : (w.drop D).head? = some c₀ := matchLen_head hc₀ hnb0
  have hlt : (w.take nn).length = nn := by
    rw [List.length_take]
    omega
  have hsplit : w.drop D = (a.toTag.toList.drop D) ++ w.drop nn := by
    conv_lhs => rw [← List.take_append_drop nn w]
    rw [List.drop_append_of_le_length (by omega : D ≤ (w.take nn).length), htake]
  have hralen : a.toTag.toList.length = nn := by
    rw [← htake]
    exact hlt
  have hrane : a.toTag.toList.drop D ≠ [] := by
    intro hcon
    have := List.drop_eq_nil_iff.mp hcon
    omega
  have hget : a.toTag.toList.get? D = some c₀ := by
    rw [hsplit] at hhead
    rw [List.head?_append_of_ne_nil _ hrane] at hhead
    rw [List.head?_eq_getElem?, List.getElem?_drop] at hhead
    rw [List.get?_eq_getElem?]
    simpa using hhead
  have hpf : preFailsIn b.fromTagRE.pre (a.toTag.toList.drop D) = true :=
    k7_spec h7 hc₀ hD1 (by omega) hget
  have hnone : matchPre b.fromTagRE.pre (w.drop D) = none := by
    rw [hsplit]
    exact preFailsIn_matchPre hpf
  rw [matchLen_none_pre hnone] at hnb0
  cases hnb0

/-- Master lemma: any match of the observed rule `a` at the start of an output
of the applied rule `b` whose text differs from `a`'s replacement reflects to a
match at the start of the input, provided every input-position match (where the
scan of `b` copied) has text `a.toTag`. -/
theorem master (a b : substitution) (hOK : pairOKb a b = true) (s : List Char)
    (hcp : ∀ w n', w <:+ s → matchLen b.fromTagRE w = none →
      matchLen a.fromTagRE w = some n' → w.take n' = a.toTag.toList) :
    ∀ n, matchLen a.fromTagRE (applySubst b s) = some n →
      (applySubst b s).take n = a.toTag.toList := by
  rcases pairOK_split hOK with ⟨h1, h2, h3, h4, h5, h6, h7⟩
  rcases k2_spec h2 with ⟨c₀, hc₀, hc₀a, hc₀b⟩
  rcases k1_spec h1 with ⟨h1a, h1b⟩
  intro n hsome
  cases s with
  | nil =>
    rw [applySubst_nil, matchLen_nil] at hsome
    cases hsome
  | cons c s₁ =>
    cases hml : matchLen b.fromTagRE (c :: s₁) with
    | some n₀ =>
      rw [applySubst_cons_some hml] at hsome ⊢
      rcases k6_spec h6 with hbf | ⟨cm, rest, hmm6, hstop⟩
      · exfalso
        rw [matchLen_none_pre (preFailsIn_matchPre hbf)] at hsome
        cases hsome
      · rcases hstop with hstop | ⟨hall, htag, hneg⟩
        · exfalso
          have hmp := matchPre_append
            (v := applySubst b ((c :: s₁).drop n₀)) hmm6
          have hzero : clsRun a.fromTagRE.neg
              ((cm :: rest) ++ applySubst b ((c :: s₁).drop n₀)) = 0 := by
            rw [List.cons_append]
            exact clsRun_cons_mem hstop
          rw [matchLen_none_cls hmp hzero] at hsome
          cases hsome
        · -- self case: the match is exactly the replacement text
          rcases matchLen_inv hml with ⟨v, hpv, hclsv, hn₀⟩
          have hvd : v = (c :: s₁).drop b.fromTagRE.pre.length ∧
              b.fromTagRE.pre.length ≤ (c :: s₁).length := matchPre_some_drop hpv
          have hdropstop : (c :: s₁).drop n₀ = [] ∨
              ∃ ch t', (c :: s₁).drop n₀ = ch :: t' ∧ ch ∈ b.fromTagRE.neg := by
            have hdd : (c :: s₁).drop n₀ = v.drop (clsRun b.fromTagRE.neg v) := by
              rw [hn₀, ← List.drop_drop, ← hvd.1]
            rw [hdd]
            rcases clsRun_drop_stop b.fromTagRE.neg v with hnil | ⟨ch, cs2, heq, hch⟩
            · exact Or.inl hnil
            · exact Or.inr ⟨ch, cs2, heq, hch⟩
          have hT₁ := applySubst_stop_head b hc₀ hc₀b _ hdropstop
          have hmp := matchPre_append
            (v := applySubst b ((c :: s₁).drop n₀)) hmm6
          have hclseq : clsRun a.fromTagRE.neg
              ((cm :: rest) ++ applySubst b ((c :: s₁).drop n₀)) =
              (cm :: rest).length := by
            apply clsRun_append_stop hall
            rcases hT₁ with hnil | ⟨ch, t'', heq, hch⟩
            · exact Or.inl hnil
            · exact Or.inr ⟨ch, t'', heq, by rw [hneg]; exact hch⟩
          have hbuilt := matchLen_build hmp (by rw [hclseq]; simp)
          rw [hclseq] at hbuilt
          rw [hbuilt] at hsome
          injection hsome with hnval
          have hlenrb : cm :: rest = b.toTag.toList.drop a.fromTagRE.pre.length ∧
              a.fromTagRE.pre.length ≤ b.toTag.toList.length := matchPre_some_drop hmm6
          have hnrb : n = b.toTag.toList.length := by
            have hlcr : (cm :: rest).length =
                b.toTag.toList.length - a.fromTagRE.pre.length := by
              rw [hlenrb.1, List.length_drop]
            have := hlenrb.2
            omega
          rw [hnrb, List.take_left]
          rw [htag]
    | none =>
      rw [applySubst_cons_none hml] at hsome ⊢
      rcases matchLen_inv hsome with ⟨u₀, hpre, hcls, hn⟩
      rcases matchPre_cons_shift hpre h1a with ⟨x, hx, hxc, hprest⟩
      rcases preRead a b hOK s₁.length s₁ le_rfl 1 le_rfl u₀ hprest with
        ⟨e1, e2, e3, e4⟩ | ⟨e1, e2, d₁, hd₁, hdsome⟩
      · -- the pattern part mirrors into the input; now read the class part
        have hu₀ : u₀ = applySubst b (s₁.drop (a.fromTagRE.pre.length - 1)) := by
          rw [e3, e4]
        rcases clsRead a b hOK (s₁.drop (a.fromTagRE.pre.length - 1)).length _ le_rfl with
          ⟨f1, f2⟩ | ⟨ρ, hρ, hρsome⟩
        · -- full mirror: the same match exists at the head of the input
          have hρt : clsRun a.fromTagRE.neg u₀ =
              clsRun a.fromTagRE.neg (s₁.drop (a.fromTagRE.pre.length - 1)) := by
            rw [hu₀, f1]
          have hinpre : matchPre a.fromTagRE.pre (c :: s₁) =
              some (s₁.drop (a.fromTagRE.pre.length - 1)) :=
            matchPre_cons_build hx hxc e1
          have hinlen := matchLen_build hinpre (by rw [← hρt]; exact hcls)
          have hinlen' : matchLen a.fromTagRE (c :: s₁) = some n := by
            rw [hinlen, hn, hρt]
          have htk := hcp (c :: s₁) n List.suffix_rfl hml hinlen'
          rw [← htk]
          have hnsucc : n = ((a.fromTagRE.pre.length - 1) +
              clsRun a.fromTagRE.neg u₀) + 1 := by
            rw [hn]; omega
          rw [hnsucc, List.take_succ_cons, List.take_succ_cons]
          congr 1
          apply take_mirror e2
          rw [e4, hρt]
          exact f2
        · -- a block lies inside the class run: pin it inside the replacement
          exfalso
          have hinpre : matchPre a.fromTagRE.pre (c :: s₁) =
              some (s₁.drop (a.fromTagRE.pre.length - 1)) :=
            matchPre_cons_build hx hxc e1
          have hcls1 : 1 ≤ clsRun a.fromTagRE.neg
              (s₁.drop (a.fromTagRE.pre.length - 1)) := by omega
          have hinlen := matchLen_build hinpre hcls1
          have hnle := (matchLen_some hinlen).2
          have htk := hcp (c :: s₁) _ List.suffix_rfl hml hinlen
          apply pinContra a b h7 hc₀ htk hnle
            (show 1 ≤ a.fromTagRE.pre.length + ρ by omega)
            (show a.fromTagRE.pre.length + ρ <
              a.fromTagRE.pre.length +
                clsRun a.fromTagRE.neg (s₁.drop (a.fromTagRE.pre.length - 1)) by omega)
          have hdrop : (c :: s₁).drop (a.fromTagRE.pre.length + ρ) =
              (s₁.drop (a.fromTagRE.pre.length - 1)).drop ρ := by
            rw [List.drop_drop]
            have hsucc : a.fromTagRE.pre.length + ρ =
                (a.fromTagRE.pre.length - 1 + ρ) + 1 := by omega
            rw [hsucc, List.drop_succ_cons]
          rw [hdrop]
          exact hρsome
      · -- a block lies inside the pattern part: pin it inside the replacement
        exfalso
        have hinpre : matchPre a.fromTagRE.pre (c :: s₁) =
            some (s₁.drop (a.fromTagRE.pre.length - 1)) :=
          matchPre_cons_build hx hxc e1
        have hinlen := matchLen_build hinpre e2
        have hnle := (matchLen_some hinlen).2
        have htk := hcp (c :: s₁) _ List.suffix_rfl hml hinlen
        apply pinContra a b h7 hc₀ htk hnle
          (show 1 ≤ d₁ + 1 by omega)
          (show d₁ + 1 < a.fromTagRE.pre.length +
            clsRun a.fromTagRE.neg (s₁.drop (a.fromTagRE.pre.length - 1)) by omega)
        rw [List.drop_succ_cons]
        exact hdsome

/-! ### Suffix decomposition of an output -/

theorem suffix_append_split : ∀ (a w b : List Char), w <:+ a ++ b →
    w <:+ b ∨ ∃ i, i ≤ a.length ∧ w = a.drop i ++ b := by
  intro a
  induction a with
  | nil =>
    intro w b h
    left
    simpa using h
  | cons x xs ih =>
    intro w b h
    rw [List.cons_append, List.suffix_cons_iff] at h
    rcases h with rfl | h
    · right
      exact ⟨0, by omega, by simp⟩
    · rcases ih w b h with h' | ⟨i, hi, rfl⟩
      · exact Or.inl h'
      · right
        exact ⟨i + 1, by simpa using Nat.succ_le_succ hi, by simp⟩

theorem sufOut (b : substitution) :
    ∀ N : Nat, ∀ s : List Char, s.length ≤ N → ∀ w, w <:+ applySubst b s →
      (∃ s', s' <:+ s ∧ w = applySubst b s') ∨
      (∃ i s', 0 < i ∧ i < b.toTag.toList.length ∧ s' <:+ s ∧
        w = b.toTag.toList.drop i ++ applySubst b s') := by
  intro N
  induction N with
  | zero =>
    intro s hsl w hw
    have hs : s = [] := List.eq_nil_of_length_eq_zero (Nat.le_zero.mp hsl)
    subst hs
    rw [applySubst_nil] at hw
    left
    exact ⟨[], List.suffix_rfl, by simpa [applySubst_nil] using List.suffix_nil.mp hw⟩
  | succ M ih =>
    intro s hsl w hw
    cases s with
    | nil =>
      rw [applySubst_nil] at hw
      left
      exact ⟨[], List.suffix_rfl, by simpa [applySubst_nil] using List.suffix_nil.mp hw⟩
    | cons c s₁ =>
      cases hml : matchLen b.fromTagRE (c :: s₁) with
      | none =>
        rw [applySubst_cons_none hml, List.suffix_cons_iff] at hw
        rcases hw with rfl | hw
        · left
          exact ⟨c :: s₁, List.suffix_rfl, (applySubst_cons_none hml).symm⟩
        · rcases ih s₁ (by simpa using hsl) w hw with
            ⟨s', hs', rfl⟩ | ⟨i, s', hi0, hilt, hs', rfl⟩
          · exact Or.inl ⟨s', hs'.trans (List.suffix_cons c s₁), rfl⟩
          · exact Or.inr ⟨i, s', hi0, hilt, hs'.trans (List.suffix_cons c s₁), rfl⟩
      | some n₀ =>
        rw [applySubst_cons_some hml] at hw
        rcases suffix_append_split _ _ _ hw with hw' | ⟨i, hi, rfl⟩
        · have hlen : ((c :: s₁).drop n₀).length ≤ M := by
            rcases matchLen_some hml with ⟨hn1, hn2⟩
            rw [List.length_drop]
            simp only [List.length_cons] at hsl hn2 ⊢
            omega
          rcases ih _ hlen w hw' with
            ⟨s', hs', rfl⟩ | ⟨i, s', hi0, hilt, hs', rfl⟩
          · exact Or.inl ⟨s', hs'.trans (List.drop_suffix _ _), rfl⟩
          · exact Or.inr ⟨i, s', hi0, hilt, hs'.trans (List.drop_suffix _ _), rfl⟩
        · by_cases hi0 : i = 0
          · subst hi0
            left
            refine ⟨c :: s₁, List.suffix_rfl, ?_⟩
            rw [applySubst_cons_some hml]
            simp
          · by_cases hilen : i < b.toTag.toList.length
            · exact Or.inr ⟨i, (c :: s₁).drop n₀, by omega, hilen,
                List.drop_suffix _ _, rfl⟩
            · have hieq : i = b.toTag.toList.length := by omega
              subst hieq
              left
              exact ⟨(c :: s₁).drop n₀, List.drop_suffix _ _, by rw [List.drop_length]; simp⟩

/-! ### The fixed-point predicate and its propagation -/

/-- Every match of rule `a` anywhere in `t` has exactly the replacement text of
`a` as its matched text.  `replaceAll` leaves such a `t` unchanged. -/
def Qfix (a : substitution) (t : List Char) : Prop :=
  ∀ w n, w <:+ t → matchLen a.fromTagRE w = some n → w.take n = a.toTag.toList

theorem Qout (a b : substitution) (hOK : pairOKb a b = true) (s : List Char)
    (hu : ∀ w n, w <:+ s → matchLen b.fromTagRE w = none →
      matchLen a.fromTagRE w = some n → w.take n = a.toTag.toList) :
    Qfix a (applySubst b s) := by
  intro w n hw hsome
  rcases sufOut b s.length s le_rfl w hw with ⟨s', hs', rfl⟩ | ⟨i, s', hi0, hilt, hs', rfl⟩
  · exact master a b hOK s' (fun w' n' hsuf => hu w' n' (hsuf.trans hs')) n hsome
  · exfalso
    have h5 := (pairOK_split hOK).2.2.2.2.1
    have hpf := k5_spec h5 (by omega : 1 ≤ i) hilt
    rw [matchLen_none_pre (preFailsIn_matchPre hpf)] at hsome
    cases hsome

theorem Qfix_establish (a : substitution) (hOK : pairOKb a a = true) (s : List Char) :
    Qfix a (applySubst a s) :=
  Qout a a hOK s (fun w' n' _ hnone hsome' => by rw [hnone] at hsome'; cases hsome')

theorem Qfix_preserve (a b : substitution) (hOK : pairOKb a b = true) {u : List Char}
    (hq : Qfix a u) : Qfix a (applySubst b u) :=
  Qout a b hOK u (fun w' n' hsuf _ hsome' => hq w' n' hsuf hsome')

theorem applySubsts_nil_rules (u : List Char) : applySubsts [] u = u := rfl

theorem applySubsts_cons_rules (r : substitution) (rs : List substitution) (u : List Char) :
    applySubsts (r :: rs) u = applySubsts rs (applySubst r u) := rfl

theorem Qfix_preserve_list (a : substitution) :
    ∀ rest : List substitution, (∀ r ∈ rest, pairOKb a r = true) →
      ∀ u, Qfix a u → Qfix a (applySubsts rest u) := by
  intro rest
  induction rest with
  | nil => intro _ u hq; exact hq
  | cons r rs ih =>
    intro hall u hq
    rw [applySubsts_cons_rules]
    exact ih (fun x hx => hall x (by simp [hx])) _
      (Qfix_preserve a r (hall r (by simp)) hq)

/-- The pairwise conditions, over a rule list in application order. -/
def pairwiseOKb : List substitution → Bool
  | [] => true
  | a :: rest => (a :: rest).all (pairOKb a) && pairwiseOKb rest

theorem Qfix_all (subs : List substitution) :
    pairwiseOKb subs = true → ∀ s : List Char, ∀ a ∈ subs, Qfix a (applySubsts subs s) := by
  induction subs with
  | nil => intro _ s a ha; cases ha
  | cons r rest ih =>
    intro hOK s a ha
    rw [pairwiseOKb, Bool.and_eq_true, List.all_eq_true] at hOK
    rw [applySubsts_cons_rules]
    rcases List.mem_cons.mp ha with rfl | ha'
    · exact Qfix_preserve_list a rest (fun x hx => hOK.1 x (by simp [hx])) _
        (Qfix_establish a (hOK.1 a (by simp)) s)
    · exact ih hOK.2 (applySubst r s) a ha'

theorem replaceAll_fix (a : substitution) :
    ∀ N : Nat, ∀ s : List Char, s.length ≤ N → Qfix a s → applySubst a s = s := by
  intro N
  induction N with
  | zero =>
    intro s hsl _
    have hs : s = [] := List.eq_nil_of_length_eq_zero (Nat.le_zero.mp hsl)
    subst hs
    exact applySubst_nil a
  | succ M ih =>
    intro s hsl hq
    cases s with
    | nil => exact applySubst_nil a
    | cons c s₁ =>
      cases hml : matchLen a.fromTagRE (c :: s₁) with
      | none =>
        rw [applySubst_cons_none hml]
        congr 1
        exact ih s₁ (by simpa using hsl)
          (fun w m hsuf => hq w m (hsuf.trans (List.suffix_cons c s₁)))
      | some n =>
        rw [applySubst_cons_some hml]
        have htk := hq (c :: s₁) n List.suffix_rfl hml
        have hsplit : (c :: s₁) = a.toTag.toList ++ (c :: s₁).drop n := by
          conv_lhs => rw [← List.take_append_drop n (c :: s₁)]
          rw [htk]
        rcases matchLen_some hml with ⟨hn1, hn2⟩
        have hlen : ((c :: s₁).drop n).length ≤ M := by
          rw [List.length_drop]
          simp only [List.length_cons] at hsl hn2 ⊢
          omega
        rw [ih _ hlen (fun w m hsuf => hq w m (hsuf.trans (List.drop_suffix _ _)))]
        exact hsplit.symm

theorem applySubsts_fix (subs : List substitution) :
    ∀ t : List Char, (∀ a ∈ subs, Qfix a t) → applySubsts subs t = t := by
  induction subs with
  | nil => intro t _; rfl
  | cons r rest ih =>
    intro t hq
    rw [applySubsts_cons_rules,
      replaceAll_fix r t.length t le_rfl (hq r (by simp))]
    exact ih t (fun a ha => hq a (by simp [ha]))

/-- Idempotence of the ordered rule list of a table entry. -/
theorem applySubsts_idem (subs : List substitution) (hOK : pairwiseOKb subs = true)
    (s : List Char) :
    applySubsts subs (applySubsts subs s) = applySubsts subs s :=
  applySubsts_fix subs _ (fun a ha => Qfix_all subs hOK s a ha)

/-- The decidable side conditions hold for every entry of the substitution
table. -/
theorem table_pairwiseOK : ∀ e ∈ imageSubstitutions, pairwiseOKb e.2 = true := by
  decide

/-! ### Filesystem model and the applier -/

/-- A filesystem state for the applier: per-path content bytes and mode bits,
plus which paths fail on write (modelling e.g. a read-only backing store).
Reading or stat-ing a missing path fails as in afero; writing replaces the
content and sets the given mode. -/
structure Filesystem where
  files : String → Option (List Char × Nat)
  writeFails : String → Bool

def readFile (fs : Filesystem) (p : String) : Except String (List Char) :=
  match fs.files p with
  | none => .error ("open " ++ p ++ ": file does not exist")
  | some e => .ok e.1

def statFile (fs : Filesystem) (p : String) : Except String Nat :=
  match fs.files p with
  | none => .error ("open " ++ p ++ ": file does not exist")
  | some e => .ok e.2

def writeFile (fs : Filesystem) (p : String) (b : List Char) (m : Nat) :
    Except String Filesystem :=
  if fs.writeFails p then .error ("open " ++ p ++ ": operation not permitted")
  else .ok { files := fun q => if q = p then some (b, m) else fs.files q,
             writeFails := fs.writeFails }

/-- Filesystem operations performed by the applier, for the frame claims. -/
inductive FSOp where
  | read (p : String)
  | stat (p : String)
  | write (p : String)
deriving DecidableEq

def opPath : FSOp → String
  | .read p => p
  | .stat p => p
  | .write p => p

/-- The body of `replaceImages` for one table entry: read the file, stat it,
apply the substitutions in order, write the result back with the stat mode.
Read and stat failures are wrapped with the substitution context; a write
failure is returned as-is (`return err` in the source). -/
def processOne (filePath : String) (substitutions : List substitution)
    (fs : Filesystem) : Except String Filesystem × List FSOp :=
  match readFile fs filePath with
  | .error e => (.error ("error reading file for substitution: " ++ e), [.read filePath])
  | .ok b =>
    match statFile fs filePath with
    | .error e => (.error ("error reading file info for substitution: " ++ e),
        [.read filePath, .stat filePath])
    | .ok mode =>
      match writeFile fs filePath (applySubsts substitutions b) mode with
      | .error e => (.error e, [.read filePath, .stat filePath, .write filePath])
      | .ok fs2 => (.ok fs2, [.read filePath, .stat filePath, .write filePath])

/-- Iterate the substitution table.  On failure, prior writes persist
(the operation is not transactional). -/
def replaceImagesGo : List (String × List substitution) → Filesystem →
    Except String Unit × Filesystem × List FSOp
  | [], fs => (.ok (), fs, [])
  | (filePath, substitutions) :: rest, fs =>
    match processOne filePath substitutions fs with
    | (.error e, ops) => (.error e, fs, ops)
    | (.ok fs2, ops) =>
      let r := replaceImagesGo rest fs2
      (r.1, r.2.1, ops ++ r.2.2)

/-- `replaceImages` replaces upstream images with their downstream (OpenShift)
equivalents. -/
def replaceImages (fs : Filesystem) : Except String Unit × Filesystem × List FSOp :=
  replaceImagesGo imageSubstitutions fs

/-! ### Configuration store and the Scaffold step -/

/-- Result of the configuration store's `EncodePluginConfig` call: success,
the distinguished `config.UnsupportedFieldError` of the kubebuilder config
library (matched by `errors.As` in the source), or any other error with its
message. -/
inductive ConfigResult where
  | ok
  | unsupportedField
  | other (msg : String)
deriving DecidableEq

/-- The injected configuration store, described by what its
`EncodePluginConfig` returns. -/
structure ConfigStore where
  encodeResult : ConfigResult

/-- Modelled from the spec: the plugin identity key is a fixed, versioned
string constant declared elsewhere in this package (the declaring file is not
under `src/`); the spec only requires a stable string, and no claim depends on
its exact value. -/
def pluginKey : String := "openshift.io/v1"

/-- Calls made by `Scaffold`, in order, for the temporal claim. -/
inductive Event where
  | substituteImages
  | encodePluginConfig
deriving DecidableEq

/-- `Scaffold` updates a newly initialized project with OpenShift-specific
configuration: it runs the applier, then asks the configuration store to
persist the plugin marker, tolerating only the unsupported-field error. -/
def Scaffold (fs : Filesystem) (cfg : ConfigStore) :
    Except String Unit × Filesystem × List Event :=
  match replaceImages fs with
  | (.error e, fs2, _) => (.error e, fs2, [.substituteImages])
  | (.ok _, fs2, _) =>
    match cfg.encodeResult with
    | .ok => (.ok (), fs2, [.substituteImages, .encodePluginConfig])
    | .unsupportedField => (.ok (), fs2, [.substituteImages, .encodePluginConfig])
    | .other msg =>
      (.error ("error writing plugin config for " ++ pluginKey ++ ": " ++ msg),
        fs2, [.substituteImages, .encodePluginConfig])

/-! ### Structure of applier runs -/

/-- The filesystem after a successful write of `bc` with mode `m` at `p`. -/
def writtenFS (fs : Filesystem) (p : String) (bc : List Char) (m : Nat) : Filesystem :=
  { files := fun q => if q = p then some (bc, m) else fs.files q,
    writeFails := fs.writeFails }

theorem processOne_missing {p : String} {subs : List substitution} {fs : Filesystem}
    (h : fs.files p = none) :
    processOne p subs fs =
      (.error ("error reading file for substitution: " ++
        ("open " ++ p ++ ": file does not exist")), [.read p]) := by
  unfold processOne readFile
  simp only [h]

theorem processOne_wfail {p : String} {subs : List substitution} {fs : Filesystem}
    {b : List Char} {m : Nat} (h : fs.files p = some (b, m)) (hw : fs.writeFails p = true) :
    processOne p subs fs =
      (.error ("open " ++ p ++ ": operation not permitted"),
        [.read p, .stat p, .write p]) := by
  unfold processOne readFile statFile writeFile
  simp only [h, hw, if_true]

theorem processOne_write_ok {p : String} {subs : List substitution} {fs : Filesystem}
    {b : List Char} {m : Nat} (h : fs.files p = some (b, m)) (hw : fs.writeFails p = false) :
    processOne p subs fs =
      (.ok (writtenFS fs p (applySubsts subs b) m), [.read p, .stat p, .write p]) := by
  unfold processOne readFile statFile writeFile writtenFS
  simp only [h, hw]
  rfl

theorem replaceImagesGo_frame (tbl : List (String × List substitution)) :
    ∀ fs : Filesystem,
      (∀ op ∈ (replaceImagesGo tbl fs).2.2, opPath op ∈ tbl.map Prod.fst) ∧
      (∀ p, p ∉ tbl.map Prod.fst → (replaceImagesGo tbl fs).2.1.files p = fs.files p) ∧
      (replaceImagesGo tbl fs).2.1.writeFails = fs.writeFails := by
  induction tbl with
  | nil =>
    intro fs
    refine ⟨?_, ?_, ?_⟩
    · intro op hop
      simp [replaceImagesGo] at hop
    · intro p _
      rfl
    · rfl
  | cons ent rest ih =>
    intro fs
    obtain ⟨p, subs⟩ := ent
    cases hf : fs.files p with
    | none =>
      refine ⟨?_, ?_, ?_⟩
      · intro op hop
        simp only [replaceImagesGo, processOne_missing hf] at hop
        simp only [List.mem_singleton] at hop
        subst hop
        simp [opPath]
      · intro q _
        simp only [replaceImagesGo, processOne_missing hf]
      · simp only [replaceImagesGo, processOne_missing hf]
    | some bm =>
      obtain ⟨b, m⟩ := bm
      cases hw : fs.writeFails p with
      | true =>
        refine ⟨?_, ?_, ?_⟩
        · intro op hop
          simp only [replaceImagesGo, processOne_wfail hf hw] at hop
          simp only [List.mem_cons, List.not_mem_nil, or_false] at hop
          rcases hop with rfl | rfl | rfl <;> simp [opPath]
        · intro q _
          simp only [replaceImagesGo, processOne_wfail hf hw]
        · simp only [replaceImagesGo, processOne_wfail hf hw]
      | false =>
        rcases ih (writtenFS fs p (applySubsts subs b) m) with ⟨ihops, ihframe, ihwf⟩
        refine ⟨?_, ?_, ?_⟩
        · intro op hop
          simp only [replaceImagesGo, processOne_write_ok hf hw] at hop
          rw [List.mem_append] at hop
          rcases hop with hop | hop
          · simp only [List.mem_cons, List.not_mem_nil, or_false] at hop
            rcases hop with rfl | rfl | rfl <;> simp [opPath]
          · have := ihops op hop
            simp only [List.map_cons, List.mem_cons]
            exact Or.inr this
        · intro q hq
          rw [List.map_cons, List.mem_cons] at hq
          push_neg at hq
          simp only [replaceImagesGo, processOne_write_ok hf hw]
          rw [ihframe q hq.2]
          simp [writtenFS, hq.1]
        · simp only [replaceImagesGo, processOne_write_ok hf hw]
          rw [ihwf]
          rfl

theorem replaceImagesGo_spec (tbl : List (String × List substitution)) :
    ∀ fs fs2 : Filesystem, ∀ ops : List FSOp, (tbl.map Prod.fst).Nodup →
      replaceImagesGo tbl fs = (.ok (), fs2, ops) →
      ∀ e ∈ tbl, ∃ bc m, fs.files e.1 = some (bc, m) ∧ fs.writeFails e.1 = false ∧
        fs2.files e.1 = some (applySubsts e.2 bc, m) := by
  induction tbl with
  | nil => intro fs fs2 ops _ _ e he; cases he
  | cons ent rest ih =>
    intro fs fs2 ops hnd h e he
    obtain ⟨p, subs⟩ := ent
    cases hf : fs.files p with
    | none => simp [replaceImagesGo, processOne_missing hf] at h
    | some bm =>
      obtain ⟨b, m⟩ := bm
      cases hw : fs.writeFails p with
      | true => simp [replaceImagesGo, processOne_wfail hf hw] at h
      | false =>
        rcases hr : replaceImagesGo rest (writtenFS fs p (applySubsts subs b) m) with
          ⟨res, fs2', ops'⟩
        simp only [replaceImagesGo, processOne_write_ok hf hw, hr] at h
        simp only [Prod.mk.injEq] at h
        obtain ⟨hres, hfs2, hops⟩ := h
        subst hfs2
        rw [List.map_cons, List.nodup_cons] at hnd
        have hrest := ih (writtenFS fs p (applySubsts subs b) m) fs2' ops' hnd.2
          (by rw [hr, hres])
        have hframe := replaceImagesGo_frame rest (writtenFS fs p (applySubsts subs b) m)
        rcases List.mem_cons.mp he with rfl | he'
        · refine ⟨b, m, hf, hw, ?_⟩
          have hfr := hframe.2.1 p hnd.1
          rw [hr] at hfr
          rw [hfr]
          simp [writtenFS]
        · have hnep : e.1 ≠ p := by
            intro hcon
            have hmem : e.1 ∈ List.map Prod.fst rest := List.mem_map_of_mem Prod.fst he'
            rw [hcon] at hmem
            exact hnd.1 hmem
          rcases hrest e he' with ⟨bc', m', hf', hw', hout⟩
          refine ⟨bc', m', ?_, ?_, hout⟩
          · rw [← hf']
            simp [writtenFS, hnep]
          · rw [← hw']
            rfl

theorem replaceImagesGo_ok_build (tbl : List (String × List substitution)) :
    ∀ fs : Filesystem,
      (∀ e ∈ tbl, (fs.files e.1).isSome = true ∧ fs.writeFails e.1 = false) →
      (replaceImagesGo tbl fs).1 = .ok () := by
  induction tbl with
  | nil => intro fs _; rfl
  | cons ent rest ih =>
    intro fs hall
    obtain ⟨p, subs⟩ := ent
    obtain ⟨hfs, hw⟩ := hall (p, subs) (by simp)
    rcases Option.isSome_iff_exists.mp hfs with ⟨⟨b, m⟩, hf⟩
    simp only [replaceImagesGo, processOne_write_ok hf hw]
    apply ih
    intro e he
    obtain ⟨hfs', hw'⟩ := hall e (by simp [he])
    constructor
    · by_cases hep : e.1 = p
      · simp [writtenFS, hep]
      · simpa [writtenFS, hep] using hfs'
    · exact hw'

/-! ### Scaffold structure -/

theorem Scaffold_fs_eq (fs : Filesystem) (cfg : ConfigStore) :
    (Scaffold fs cfg).2.1 = (replaceImages fs).2.1 := by
  unfold Scaffold
  rcases hr : replaceImages fs with ⟨res, fs2, ops⟩
  cases res with
  | error e => simp
  | ok u =>
    cases u
    cases cfg.encodeResult <;> simp

theorem Scaffold_ok_iff (fs : Filesystem) (cfg : ConfigStore) :
    (Scaffold fs cfg).1 = .ok () ↔
      ((replaceImages fs).1 = .ok () ∧ ∀ msg, cfg.encodeResult ≠ .other msg) := by
  unfold Scaffold
  rcases hr : replaceImages fs with ⟨res, fs2, ops⟩
  cases res with
  | error e => simp
  | ok u =>
    cases u
    cases hc : cfg.encodeResult <;> simp [hc]

/-! ### Concrete filesystems for the scenario claims -/

/-- Content bytes of a path, empty for a missing file. -/
def fileContent (fs : Filesystem) (p : String) : List Char :=
  ((fs.files p).map Prod.fst).getD []

/-- Mode bits of a path, `0` for a missing file. -/
def fileMode (fs : Filesystem) (p : String) : Nat :=
  ((fs.files p).map Prod.snd).getD 0

/-- A freshly scaffolded Go-project filesystem with all three table files. -/
def exampleFS : Filesystem :=
  { files := fun p =>
      if p = "config/default/manager_auth_proxy_patch.yaml" then
        some (("        image: gcr.io/kubebuilder/kube-rbac-proxy:v0.13.1\n").toList, 420)
      else if p = "Dockerfile" then
        some (("FROM golang:1.19 AS builder\nWORKDIR /workspace\n" ++
          "FROM gcr.io/distroless/static:nonroot\n" ++
          "COPY --from=builder /workspace/manager .\n").toList, 493)
      else if p = "go.mod" then
        some (("module example.com/memcached-operator\n\ngo 1.19\n\n" ++
          "require golang.org/x/net v0.10.0\n").toList, 420)
      else none,
    writeFails := fun _ => false }

/-- Like `exampleFS` but every write fails (a read-only backing store). -/
def readOnlyFS : Filesystem :=
  { files := exampleFS.files, writeFails := fun _ => true }

/-- Like `exampleFS` but with the image-patch manifest absent. -/
def missingFileFS : Filesystem :=
  { files := fun p =>
      if p = "config/default/manager_auth_proxy_patch.yaml" then none
      else exampleFS.files p,
    writeFails := fun _ => false }

deriving instance DecidableEq for Except

/-! ### Claim theorems -/

/-- **C1**: For a filesystem whose Dockerfile contains
`FROM gcr.io/distroless/static:nonroot` and whose go.mod contains `go 1.19`,
after a successful run of the Scaffold step the Dockerfile contains
`FROM registry.access.redhat.com/ubi8/ubi-minimal:8.8` and the go.mod contains
`go 1.20` (concrete scenario, evaluated on a freshly scaffolded filesystem). -/
theorem c1_concrete_scenario :
    ("FROM gcr.io/distroless/static:nonroot".toList <:+:
      fileContent exampleFS "Dockerfile") ∧
    ("go 1.19".toList <:+: fileContent exampleFS "go.mod") ∧
    (Scaffold exampleFS ⟨.ok⟩).1 = .ok () ∧
    ("FROM registry.access.redhat.com/ubi8/ubi-minimal:8.8".toList <:+:
      fileContent (Scaffold exampleFS ⟨.ok⟩).2.1 "Dockerfile") ∧
    ("go 1.20".toList <:+: fileContent (Scaffold exampleFS ⟨.ok⟩).2.1 "go.mod") := by
  decide

/-- **C2**: For every filesystem state on which substitution succeeds (so the
configuration store is actually consulted), the distinguished
unsupported-field result of `EncodePluginConfig` is not a failure — Scaffold
still returns success — while any other non-nil result makes the step fail
with an error whose message includes the plugin identity key. -/
theorem c2_plugin_config_error_handling (fs : Filesystem)
    (h : (replaceImages fs).1 = .ok ()) :
    (Scaffold fs ⟨.unsupportedField⟩).1 = .ok () ∧
    ∀ msg, ∃ e, (Scaffold fs ⟨.other msg⟩).1 = .error e ∧
      pluginKey.toList <:+: e.toList := by
  rcases hr : replaceImages fs with ⟨res, fs2, ops⟩
  rw [hr] at h
  have hres : res = .ok () := h
  subst hres
  constructor
  · show (Scaffold fs ⟨.unsupportedField⟩).1 = .ok ()
    unfold Scaffold
    rw [hr]
  · intro msg
    refine ⟨"error writing plugin config for " ++ pluginKey ++ ": " ++ msg, ?_, ?_⟩
    · unfold Scaffold
      rw [hr]
    · exact ⟨"error writing plugin config for ".toList, (": " ++ msg).toList, by
        simp [String.toList, String.data_append, List.append_assoc]⟩

theorem c2_witness :
    (replaceImages exampleFS).1 = .ok () ∧
    ((Scaffold exampleFS ⟨.unsupportedField⟩).1 = .ok () ∧
      ∀ msg, ∃ e, (Scaffold exampleFS ⟨.other msg⟩).1 = .error e ∧
        pluginKey.toList <:+: e.toList) :=
  ⟨by decide, c2_plugin_config_error_handling exampleFS (by decide)⟩

/-- **C5**: For every file in the substitution table, a successful run of the
applier preserves its mode bits: the write uses the mode captured by the
pre-write stat, so the mode after the run equals the mode before. -/
theorem c5_mode_preserved (fs : Filesystem) (h : (replaceImages fs).1 = .ok ()) :
    ∀ e ∈ imageSubstitutions, ∃ bc m, fs.files e.1 = some (bc, m) ∧
      ∃ bc', (replaceImages fs).2.1.files e.1 = some (bc', m) := by
  rcases hx : replaceImages fs with ⟨res, fs2, ops⟩
  rw [hx] at h
  have hres : res = .ok () := h
  subst hres
  have hnd : (imageSubstitutions.map Prod.fst).Nodup := by decide
  intro e he
  rcases replaceImagesGo_spec imageSubstitutions fs fs2 ops hnd hx e he with
    ⟨bc, m, hf, hw, hout⟩
  exact ⟨bc, m, hf, applySubsts e.2 bc, hout⟩

theorem c5_witness :
    (replaceImages exampleFS).1 = .ok () ∧
    ∀ e ∈ imageSubstitutions, ∃ bc m, exampleFS.files e.1 = some (bc, m) ∧
      ∃ bc', (replaceImages exampleFS).2.1.files e.1 = some (bc', m) :=
  ⟨by decide, c5_mode_preserved exampleFS (by decide)⟩

/-- **C6**: For every path not present in the substitution table (lookup is by
exact relative path), the applier performs no read, stat or write on that path
and its byte content is identical before and after the step — also on runs
that fail partway. -/
theorem c6_untouched_paths (fs : Filesystem) (p : String)
    (h : p ∉ imageSubstitutions.map Prod.fst) :
    (∀ op ∈ (replaceImages fs).2.2, opPath op ≠ p) ∧
    (replaceImages fs).2.1.files p = fs.files p := by
  rcases replaceImagesGo_frame imageSubstitutions fs with ⟨hops, hframe, _⟩
  refine ⟨?_, hframe p h⟩
  intro op hop hcon
  rw [← hcon] at h
  exact h (hops op hop)

theorem c6_witness :
    ("README.md" ∉ imageSubstitutions.map Prod.fst) ∧
    ((∀ op ∈ (replaceImages exampleFS).2.2, opPath op ≠ "README.md") ∧
      (replaceImages exampleFS).2.1.files "README.md" = exampleFS.files "README.md") :=
  ⟨by decide, c6_untouched_paths exampleFS "README.md" (by decide)⟩

/-- **C8**: The Scaffold step never requests marker persistence before
substitution has completed successfully: the encode call appears in the trace
only when `replaceImages` returned without error; when substitution fails the
trace stops after the substitution call, and the only traces are
`[substituteImages]` and `[substituteImages, encodePluginConfig]` (no retries,
no other orderings). -/
theorem c8_encode_after_substitution (fs : Filesystem) (cfg : ConfigStore) :
    (Event.encodePluginConfig ∈ (Scaffold fs cfg).2.2 →
      (replaceImages fs).1 = .ok ()) ∧
    (∀ e, (replaceImages fs).1 = .error e →
      (Scaffold fs cfg).2.2 = [Event.substituteImages]) ∧
    ((Scaffold fs cfg).2.2 = [Event.substituteImages] ∨
      (Scaffold fs cfg).2.2 = [Event.substituteImages, Event.encodePluginConfig]) := by
  rcases hr : replaceImages fs with ⟨res, fs2, ops⟩
  cases res with
  | error e0 =>
    refine ⟨?_, ?_, ?_⟩
    · intro hmem
      exfalso
      unfold Scaffold at hmem
      rw [hr] at hmem
      simp at hmem
    · intro e _
      unfold Scaffold
      rw [hr]
    · left
      unfold Scaffold
      rw [hr]
  | ok u =>
    cases u
    refine ⟨?_, ?_, ?_⟩
    · intro _
      rfl
    · intro e he
      simp at he
    · unfold Scaffold
      rw [hr]
      cases cfg.encodeResult <;> simp

theorem c8_witness :
    Event.encodePluginConfig ∈ (Scaffold exampleFS ⟨.ok⟩).2.2 ∧
    (replaceImages exampleFS).1 = .ok () :=
  ⟨by decide, (c8_encode_after_substitution exampleFS ⟨.ok⟩).1 (by decide)⟩

/-- **C3**: For every filesystem state on which the Scaffold step succeeds,
running the step a second time also succeeds and leaves every file's byte
content identical to its content after the first run (each rule's replacement
text is either not re-matched by its own pattern or re-replaced with the same
text, and the rule lists are mutually non-interfering). -/
theorem c3_scaffold_idempotent (fs : Filesystem) (cfg : ConfigStore)
    (h : (Scaffold fs cfg).1 = .ok ()) :
    (Scaffold (Scaffold fs cfg).2.1 cfg).1 = .ok () ∧
    ∀ p, (Scaffold (Scaffold fs cfg).2.1 cfg).2.1.files p =
      (Scaffold fs cfg).2.1.files p := by
  rcases (Scaffold_ok_iff fs cfg).mp h with ⟨hri, hcfg⟩
  rcases hx : replaceImages fs with ⟨res, fs1, ops⟩
  rw [hx] at hri
  have hres : res = .ok () := hri
  subst hres
  have hnd : (imageSubstitutions.map Prod.fst).Nodup := by decide
  have hspec := replaceImagesGo_spec imageSubstitutions fs fs1 ops hnd hx
  have hframe := replaceImagesGo_frame imageSubstitutions fs
  have hRIfs : replaceImagesGo imageSubstitutions fs = (Except.ok (), fs1, ops) := hx
  rw [hRIfs] at hframe
  have hok2 : (replaceImages fs1).1 = .ok () := by
    apply replaceImagesGo_ok_build
    intro e he
    rcases hspec e he with ⟨bc, m, hf, hw, hout⟩
    constructor
    · rw [hout]
      rfl
    · have hwf1 : fs1.writeFails = fs.writeFails := hframe.2.2
      rw [hwf1]
      exact hw
  have hsc2 : (Scaffold fs1 cfg).1 = .ok () := (Scaffold_ok_iff fs1 cfg).mpr ⟨hok2, hcfg⟩
  have hfs1 : (Scaffold fs cfg).2.1 = fs1 := by rw [Scaffold_fs_eq, hx]
  rcases hy : replaceImages fs1 with ⟨res2, fs2, ops2⟩
  rw [hy] at hok2
  have hres2 : res2 = .ok () := hok2
  subst hres2
  have hspec2 := replaceImagesGo_spec imageSubstitutions fs1 fs2 ops2 hnd hy
  have hframe2 := replaceImagesGo_frame imageSubstitutions fs1
  have hRIfs2 : replaceImagesGo imageSubstitutions fs1 = (Except.ok (), fs2, ops2) := hy
  rw [hRIfs2] at hframe2
  have hfs2 : (Scaffold fs1 cfg).2.1 = fs2 := by rw [Scaffold_fs_eq, hy]
  constructor
  · rw [hfs1]
    exact hsc2
  · intro p
    rw [hfs1, hfs2]
    by_cases hp : p ∈ imageSubstitutions.map Prod.fst
    · rcases List.mem_map.mp hp with ⟨e, he, rfl⟩
      rcases hspec e he with ⟨bc, m, hf, hw, hout⟩
      rcases hspec2 e he with ⟨bc2, m2, hf2, hw2, hout2⟩
      rw [hout] at hf2
      injection hf2 with hbm
      rw [Prod.mk.injEq] at hbm
      rw [hout2, ← hbm.1, ← hbm.2, applySubsts_idem e.2 (table_pairwiseOK e he) bc, hout]
    · rw [hframe2.2.1 p hp]

theorem c3_witness :
    (Scaffold exampleFS ⟨.ok⟩).1 = .ok () ∧
    ((Scaffold (Scaffold exampleFS ⟨.ok⟩).2.1 ⟨.ok⟩).1 = .ok () ∧
      ∀ p, (Scaffold (Scaffold exampleFS ⟨.ok⟩).2.1 ⟨.ok⟩).2.1.files p =
        (Scaffold exampleFS ⟨.ok⟩).2.1.files p) :=
  ⟨by decide, c3_scaffold_idempotent exampleFS ⟨.ok⟩ (by decide)⟩

/-- `true` iff the pattern of `re` matches at no position of `s`. -/
def noMatchAnywhere (re : Regexp) : List Char → Bool
  | [] => (matchLen re []).isNone
  | c :: cs => (matchLen re (c :: cs)).isNone && noMatchAnywhere re cs

theorem noMatchAnywhere_spec {re : Regexp} :
    ∀ {s : List Char}, noMatchAnywhere re s = true →
      ∀ w, w <:+ s → matchLen re w = none := by
  intro s
  induction s with
  | nil =>
    intro _ w hw
    rw [List.suffix_nil.mp hw]
    exact matchLen_nil re
  | cons c cs ih =>
    intro h w hw
    rw [noMatchAnywhere, Bool.and_eq_true] at h
    rcases List.suffix_cons_iff.mp hw with rfl | hw'
    · exact Option.eq_none_of_isNone h.1
    · exact ih h.2 w hw'

/-- **C7**: For a table file whose content contains zero matches of some
rule's pattern, applying that rule leaves the in-memory content unchanged and
produces no error; the applier still succeeds and writes the (unchanged)
content back with the original mode. -/
theorem c7_no_match_noop (r : substitution) (bc : List Char)
    (h : noMatchAnywhere r.fromTagRE bc = true) :
    applySubst r bc = bc ∧
    ∀ fs p m, fs.files p = some (bc, m) → fs.writeFails p = false →
      processOne p [r] fs = (.ok (writtenFS fs p bc m), [.read p, .stat p, .write p]) := by
  have hfix : applySubst r bc = bc :=
    replaceAll_fix r bc.length bc le_rfl
      (fun w n hw hsome => by rw [noMatchAnywhere_spec h w hw] at hsome; cases hsome)
  refine ⟨hfix, ?_⟩
  intro fs p m hf hw
  rw [processOne_write_ok hf hw]
  have hone : applySubsts [r] bc = bc := by
    rw [applySubsts_cons_rules, applySubsts_nil_rules, hfix]
  rw [hone]

theorem c7_witness :
    noMatchAnywhere golangSub.fromTagRE "FROM ubuntu:22.04\n".toList = true ∧
    (applySubst golangSub "FROM ubuntu:22.04\n".toList = "FROM ubuntu:22.04\n".toList ∧
      ∀ fs p m, fs.files p = some ("FROM ubuntu:22.04\n".toList, m) →
        fs.writeFails p = false →
        processOne p [golangSub] fs =
          (.ok (writtenFS fs p "FROM ubuntu:22.04\n".toList m),
            [.read p, .stat p, .write p])) :=
  ⟨by decide, c7_no_match_noop golangSub "FROM ubuntu:22.04\n".toList (by decide)⟩

/-- If the whole argument is one match (a prefix matched by the pattern and a
nonempty class tail), `replaceAll` returns exactly the replacement. -/
theorem applySubst_whole (r : substitution) (preChars t : List Char)
    (hne : preChars ≠ [])
    (hm : matchPre r.fromTagRE.pre (preChars ++ t) = some t)
    (ht : t ≠ []) (hts : ∀ c ∈ t, c ∉ r.fromTagRE.neg) :
    applySubst r (preChars ++ t) = r.toTag.toList := by
  have hcls : clsRun r.fromTagRE.neg t = t.length := by
    have hstop := @clsRun_append_stop r.fromTagRE.neg t [] hts (Or.inl rfl)
    simpa using hstop
  have hcls1 : 1 ≤ clsRun r.fromTagRE.neg t := by
    rw [hcls]
    cases t with
    | nil => exact absurd rfl ht
    | cons _ _ => simp
  have hml := matchLen_build hm hcls1
  have hlen : r.fromTagRE.pre.length + clsRun r.fromTagRE.neg t =
      (preChars ++ t).length := by
    rcases matchPre_some_drop hm with ⟨hdrop, hle⟩
    have hlt := congrArg List.length hdrop
    rw [List.length_drop] at hlt
    rw [List.length_append] at hlt hle ⊢
    omega
  cases preChars with
  | nil => exact absurd rfl hne
  | cons pc pcs =>
    rw [List.cons_append] at hml hlen ⊢
    show replaceAll r.fromTagRE r.toTag.toList (pc :: (pcs ++ t)) = r.toTag.toList
    rw [replaceAll_cons_some hml]
    have hdropnil :
        (pc :: (pcs ++ t)).drop (r.fromTagRE.pre.length + clsRun r.fromTagRE.neg t) = [] := by
      rw [List.drop_eq_nil_iff, hlen]
    rw [hdropnil, replaceAll_nil, List.append_nil]

/-- **C9**: The go.mod language-version rule (pattern `go 1.[^2\n]+`) leaves
unchanged any `go` directive whose first character after `1.` is the digit `2`
— `go 1.20`, `go 1.21`, `go 1.28` are all untouched — while a directive like
`go 1.19` is rewritten to `go 1.20`, with the greedy match also consuming any
trailing non-newline, non-`2` text. -/
theorem c9_go_directive_rule (t u : List Char) (hu1 : u ≠ [])
    (hu2 : ∀ c ∈ u, c ≠ '2' ∧ c ≠ '\n') :
    applySubst goVersionSub ("go 1.2".toList ++ t) =
      "go 1.2".toList ++ applySubst goVersionSub t ∧
    applySubst goVersionSub ("go 1.".toList ++ u) = "go 1.20".toList ∧
    applySubst goVersionSub "go 1.19".toList = "go 1.20".toList ∧
    applySubst goVersionSub "go 1.20".toList = "go 1.20".toList ∧
    applySubst goVersionSub "go 1.21".toList = "go 1.21".toList ∧
    applySubst goVersionSub "go 1.28".toList = "go 1.28".toList := by
  refine ⟨?_, ?_, by decide, by decide, by decide, by decide⟩
  · have h0 : matchLen goVersionSub.fromTagRE
        ('g' :: 'o' :: ' ' :: '1' :: '.' :: '2' :: t) = none := rfl
    have h1 : matchLen goVersionSub.fromTagRE
        ('o' :: ' ' :: '1' :: '.' :: '2' :: t) = none := rfl
    have h2 : matchLen goVersionSub.fromTagRE (' ' :: '1' :: '.' :: '2' :: t) = none := rfl
    have h3 : matchLen goVersionSub.fromTagRE ('1' :: '.' :: '2' :: t) = none := rfl
    have h4 : matchLen goVersionSub.fromTagRE ('.' :: '2' :: t) = none := rfl
    have h5 : matchLen goVersionSub.fromTagRE ('2' :: t) = none := rfl
    show replaceAll goVersionSub.fromTagRE goVersionSub.toTag.toList
        ('g' :: 'o' :: ' ' :: '1' :: '.' :: '2' :: t) =
      'g' :: 'o' :: ' ' :: '1' :: '.' :: '2' ::
        replaceAll goVersionSub.fromTagRE goVersionSub.toTag.toList t
    rw [replaceAll_cons_none h0, replaceAll_cons_none h1, replaceAll_cons_none h2,
      replaceAll_cons_none h3, replaceAll_cons_none h4, replaceAll_cons_none h5]
  · have hm : matchPre goVersionSub.fromTagRE.pre ("go 1.".toList ++ u) = some u := rfl
    have hts : ∀ c ∈ u, c ∉ goVersionSub.fromTagRE.neg := by
      intro c hc
      rcases hu2 c hc with ⟨hc2, hcn⟩
      simp [goVersionSub, hc2, hcn]
    exact applySubst_whole goVersionSub "go 1.".toList u (by decide) hm hu1 hts

theorem c9_witness :
    ((['x'] : List Char) ≠ [] ∧ ∀ c ∈ (['x'] : List Char), c ≠ '2' ∧ c ≠ '\n') ∧
    (applySubst goVersionSub ("go 1.2".toList ++ ['z']) =
      "go 1.2".toList ++ applySubst goVersionSub ['z'] ∧
    applySubst goVersionSub ("go 1.".toList ++ ['x']) = "go 1.20".toList ∧
    applySubst goVersionSub "go 1.19".toList = "go 1.20".toList ∧
    applySubst goVersionSub "go 1.20".toList = "go 1.20".toList ∧
    applySubst goVersionSub "go 1.21".toList = "go 1.21".toList ∧
    applySubst goVersionSub "go 1.28".toList = "go 1.28".toList) :=
  ⟨⟨by decide, by decide⟩, c9_go_directive_rule ['z'] ['x'] (by decide) (by decide)⟩

/-- **C10**: The substitutions can lower newer pins, not only raise old ones:
for every tag `t` with no space or newline, `golang:t` is rewritten to exactly
`golang:1.20` even when `t` is newer than `1.20`, and every
`golang.org/x/net` pin is rewritten to exactly `golang.org/x/net v0.17.0`
even when the existing version is newer (checked through the full Dockerfile
and go.mod rule lists on `golang:1.22` and `v0.18.0`). -/
theorem c10_lower_newer_pins (t : List Char) (ht : t ≠ [])
    (hts : ∀ c ∈ t, c ≠ ' ' ∧ c ≠ '\n') :
    applySubst golangSub ("golang:".toList ++ t) = "golang:1.20".toList ∧
    applySubst xNetSub ("golang.org/x/net ".toList ++ t) =
      "golang.org/x/net v0.17.0".toList ∧
    applySubsts [ansibleOperatorSub, helmOperatorSub, distrolessSub, golangSub, ubiMicroSub]
      "FROM golang:1.22\n".toList = "FROM golang:1.20\n".toList ∧
    applySubsts [xNetSub, goVersionSub] "require golang.org/x/net v0.18.0\n".toList =
      "require golang.org/x/net v0.17.0\n".toList := by
  have hts' : ∀ (r : substitution), r.fromTagRE.neg = [' ', '\n'] →
      ∀ c ∈ t, c ∉ r.fromTagRE.neg := by
    intro r hr c hc
    rcases hts c hc with ⟨hc1, hc2⟩
    simp [hr, hc1, hc2]
  refine ⟨?_, ?_, by decide, by decide⟩
  · have hm : matchPre golangSub.fromTagRE.pre ("golang:".toList ++ t) = some t := rfl
    exact applySubst_whole golangSub "golang:".toList t (by decide) hm ht
      (hts' golangSub rfl)
  · have hm : matchPre xNetSub.fromTagRE.pre ("golang.org/x/net ".toList ++ t) =
        some t := rfl
    exact applySubst_whole xNetSub "golang.org/x/net ".toList t (by decide) hm ht
      (hts' xNetSub rfl)

theorem c10_witness :
    (("1.22".toList : List Char) ≠ [] ∧
      ∀ c ∈ ("1.22".toList : List Char), c ≠ ' ' ∧ c ≠ '\n') ∧
    (applySubst golangSub ("golang:".toList ++ "1.22".toList) = "golang:1.20".toList ∧
    applySubst xNetSub ("golang.org/x/net ".toList ++ "1.22".toList) =
      "golang.org/x/net v0.17.0".toList ∧
    applySubsts [ansibleOperatorSub, helmOperatorSub, distrolessSub, golangSub, ubiMicroSub]
      "FROM golang:1.22\n".toList = "FROM golang:1.20\n".toList ∧
    applySubsts [xNetSub, goVersionSub] "require golang.org/x/net v0.18.0\n".toList =
      "require golang.org/x/net v0.17.0\n".toList) :=
  ⟨⟨by decide, by decide⟩, c10_lower_newer_pins "1.22".toList (by decide) (by decide)⟩

/-- Every failure of the applier is either the wrapped read/stat error or the
unwrapped write error of some table path.  (In this filesystem model a
successful read implies a successful stat, as with an afero in-memory store,
so the stat wrapper `error reading file info for substitution:` is never
produced.) -/
theorem replaceImagesGo_error_shape (tbl : List (String × List substitution)) :
    ∀ fs e, (replaceImagesGo tbl fs).1 = .error e →
      ∃ p ∈ tbl.map Prod.fst,
        e = "error reading file for substitution: " ++
          ("open " ++ p ++ ": file does not exist") ∨
        e = "open " ++ p ++ ": operation not permitted" := by
  induction tbl with
  | nil =>
    intro fs e h
    simp [replaceImagesGo] at h
  | cons ent rest ih =>
    intro fs e h
    obtain ⟨p, subs⟩ := ent
    cases hf : fs.files p with
    | none =>
      simp only [replaceImagesGo, processOne_missing hf] at h
      have h' : Except.error ("error reading file for substitution: " ++
          ("open " ++ p ++ ": file does not exist")) = Except.error e := h
      injection h' with h''
      exact ⟨p, by simp, Or.inl h''.symm⟩
    | some bm =>
      obtain ⟨b, m⟩ := bm
      cases hw : fs.writeFails p with
      | true =>
        simp only [replaceImagesGo, processOne_wfail hf hw] at h
        have h' : Except.error ("open " ++ p ++ ": operation not permitted") =
            Except.error e := h
        injection h' with h''
        exact ⟨p, by simp, Or.inr h''.symm⟩
      | false =>
        simp only [replaceImagesGo, processOne_write_ok hf hw] at h
        rcases ih (writtenFS fs p (applySubsts subs b) m) e h with ⟨p', hp', hforms⟩
        exact ⟨p', by simp [hp'], hforms⟩

/-- **C4** (counterexample): the claim that every applier failure is wrapped
with substitution context is false for write failures: on a read-only
filesystem the applier propagates the raw write error, whose message does not
mention substitution at all. -/
theorem c4_counterexample :
    (replaceImages readOnlyFS).1 =
      .error "open config/default/manager_auth_proxy_patch.yaml: operation not permitted" ∧
    ¬ ("substitution".toList <:+:
      "open config/default/manager_auth_proxy_patch.yaml: operation not permitted".toList) := by
  decide

/-- **C4** (amended): whenever the applier fails, the error identifies the
offending table path; read (and stat) failures are additionally wrapped with
the image/version-substitution context, while a write failure is propagated
as the raw filesystem error without that wrapper. -/
theorem c4_amended (fs : Filesystem) (e : String)
    (h : (replaceImages fs).1 = .error e) :
    ∃ p ∈ imageSubstitutions.map Prod.fst, p.toList <:+: e.toList ∧
      ("for substitution: ".toList <:+: e.toList ∨
        e = "open " ++ p ++ ": operation not permitted") := by
  rcases replaceImagesGo_error_shape imageSubstitutions fs e h with ⟨p, hp, hform | hform⟩
  · refine ⟨p, hp, ?_, Or.inl ?_⟩
    · refine ⟨"error reading file for substitution: ".toList ++ "open ".toList,
        ": file does not exist".toList, ?_⟩
      rw [hform]
      simp [String.toList, String.data_append, List.append_assoc]
    · refine ⟨"error reading file ".toList,
        ("open " ++ p ++ ": file does not exist").toList, ?_⟩
      rw [hform]
      have hsplit : ("error reading file for substitution: " : String) =
          "error reading file " ++ "for substitution: " := by decide
      rw [hsplit]
      simp [String.toList, String.data_append, List.append_assoc]
  · refine ⟨p, hp, ?_, Or.inr hform⟩
    refine ⟨"open ".toList, ": operation not permitted".toList, ?_⟩
    rw [hform]
    simp [String.toList, String.data_append, List.append_assoc]

theorem c4_witness :
    (replaceImages missingFileFS).1 = .error ("error reading file for substitution: " ++
      ("open " ++ "config/default/manager_auth_proxy_patch.yaml" ++
        ": file does not exist")) ∧
    ∃ p ∈ imageSubstitutions.map Prod.fst,
      p.toList <:+: ("error reading file for substitution: " ++
        ("open " ++ "config/default/manager_auth_proxy_patch.yaml" ++
          ": file does not exist")).toList ∧
      ("for substitution: ".toList <:+: ("error reading file for substitution: " ++
        ("open " ++ "config/default/manager_auth_proxy_patch.yaml" ++
          ": file does not exist")).toList ∨
        "error reading file for substitution: " ++
          ("open " ++ "config/default/manager_auth_proxy_patch.yaml" ++
            ": file does not exist") =
          "open " ++ p ++ ": operation not permitted") :=
  ⟨by decide, c4_amended missingFileFS _ (by decide)⟩

end OpenShiftV1